import Mathlib

/-!
# Wordle game core and solver: a shallow embedding

The definitions below follow `src/wordievarient.cpp` (the game core: feedback
engine, dictionary builder, game state machine with its three validity
policies), `src/wordleSolver.cpp` (the candidate filter) and the judge
`generate_feedback` of `src/wordle.cpp`.

Modelling conventions

* `std::string` is a `List Char`; in the game core and the solver `s[i]` is
  `s.getD i '\0'`: the C++ standard defines `s[s.size()]` as the null
  character, and a read further out, which the language leaves undefined, is
  given the same value. On words of one length, as the game plays them, every
  read is in range.
* `std::map<char,int>` is a total function `Char → Int`: `operator[]` creates a
  missing key with value `0`, so an absent key and a key holding `0` read alike.
* `std::set<std::string>` is a strictly increasing `List (List Char)` under the
  `std::string` order; `insert` is ordered insertion that drops equivalent keys.
* `int` is `Int`; word lengths and round counters stay far below `2^31`.
* a member function that may throw returns the value or the exception together
  with the object after the call.
-/

set_option linter.dupNamespace false

namespace Wordle

/-- A `std::string`. -/
abbrev Str := List Char

/-- Character access `s[i]`. -/
def at_ (s : Str) (i : Nat) : Char := s.getD i (Char.ofNat 0)

/-- A `std::map<char,int>`; a key never written reads as `0`. -/
abbrev CharMap := Char → Int

/-- The empty map. -/
def CharMap.empty : CharMap := fun _ => 0

/-- The statement `m[c]++`. -/
def CharMap.incr (m : CharMap) (c : Char) : CharMap :=
  fun k => if k = c then m k + 1 else m k

/-- The statement `m[c]--`. -/
def CharMap.decr (m : CharMap) (c : Char) : CharMap :=
  fun k => if k = c then m k - 1 else m k

/-- The loop `for (char c : secret) secret_counts[c]++`. -/
def countLetters (secret : Str) : CharMap :=
  secret.foldl CharMap.incr CharMap.empty

/-- Body of pass 1 of `IWordGame::feedback` at index `i`. -/
def feedbackPass1Step (secret guess : Str) (st : Str × CharMap) (i : Nat) : Str × CharMap :=
  if at_ guess i = at_ secret i then
    (st.1.set i 'G', st.2.decr (at_ guess i))
  else st

/-- Body of pass 2 of `IWordGame::feedback` at index `i`. -/
def feedbackPass2Step (guess : Str) (st : Str × CharMap) (i : Nat) : Str × CharMap :=
  if at_ st.1 i ≠ 'G' then
    if st.2 (at_ guess i) > 0 then
      (st.1.set i 'Y', st.2.decr (at_ guess i))
    else st
  else st

/-- The function `IWordGame::feedback(secret, guess)`. -/
def feedback (secret guess : Str) : Str :=
  let result : Str := List.replicate secret.length 'B'
  let secret_counts := countLetters secret
  let s1 := (List.range secret.length).foldl (feedbackPass1Step secret guess) (result, secret_counts)
  let s2 := (List.range secret.length).foldl (feedbackPass2Step guess) s1
  s2.1

/-! ## The standalone judge of `wordle.cpp`

`generate_feedback` keeps its counters in a `vector<int>` of 26 slots indexed
by `c - 'a'` and reads five positions of both words; an index outside the
vector or a read beyond the terminating null of a word has no defined result,
which is `none` here. -/

/-- The index `c - 'a'` when it falls inside the 26 counters. -/
def letterIndex (c : Char) : Option Nat :=
  if 97 ≤ c.toNat ∧ c.toNat ≤ 122 then some (c.toNat - 97) else none

/-- Character access `s[i]` for `i` up to the length of `s`. -/
def charAt (s : Str) (i : Nat) : Option Char :=
  if i ≤ s.length then some (at_ s i) else none

/-- The statement `secret_counts[c - 'a']++`. -/
def countsIncr (m : List Int) (c : Char) : Option (List Int) :=
  (letterIndex c).map (fun k => m.set k (m.getD k 0 + 1))

/-- The statement `secret_counts[c - 'a']--`. -/
def countsDecr (m : List Int) (c : Char) : Option (List Int) :=
  (letterIndex c).map (fun k => m.set k (m.getD k 0 - 1))

/-- Body of the green loop of `generate_feedback` at index `i`. -/
def judgeGreenStep (secret guess : Str) (st : Str × List Int) (i : Nat) :
    Option (Str × List Int) :=
  (charAt guess i).bind fun g =>
  (charAt secret i).bind fun s =>
    if g = s then (countsDecr st.2 g).map (fun m => (st.1.set i 'G', m))
    else some st

/-- Body of the black and yellow loop of `generate_feedback` at index `i`. -/
def judgeYellowStep (guess : Str) (st : Str × List Int) (i : Nat) :
    Option (Str × List Int) :=
  if at_ st.1 i ≠ 'G' then
    (charAt guess i).bind fun g =>
    (letterIndex g).bind fun char_index =>
      if st.2.getD char_index 0 > 0 then
        some (st.1.set i 'Y', st.2.set char_index (st.2.getD char_index 0 - 1))
      else some (st.1.set i 'B', st.2)
  else some st

/-- A counted loop whose body may have no defined result. -/
def loopOpt {σ : Type} (f : σ → Nat → Option σ) : List Nat → σ → Option σ
  | [], st => some st
  | i :: rest, st => (f st i).bind (loopOpt f rest)

/-- The counting loop `for (char c : secret) secret_counts[c - 'a']++`. -/
def judgeCount : Str → List Int → Option (List Int)
  | [], m => some m
  | c :: rest, m => (countsIncr m c).bind (judgeCount rest)

/-- The function `generate_feedback(secret, guess)` of `wordle.cpp`. -/
def generate_feedback (secret guess : Str) : Option Str :=
  let L := 5
  let pattern : Str := List.replicate L ' '
  (judgeCount secret (List.replicate 26 0)).bind fun secret_counts =>
  (loopOpt (judgeGreenStep secret guess) (List.range L) (pattern, secret_counts)).bind fun s1 =>
  (loopOpt (judgeYellowStep guess) (List.range L) s1).map fun s2 => s2.1

/-! ## Ordered sets of strings -/

/-- The order `a < b` of `std::string`: lexicographic on the character codes. -/
def strLt : Str → Str → Bool
  | [], [] => false
  | [], _ :: _ => true
  | _ :: _, [] => false
  | a :: as, b :: bs =>
    if a.toNat < b.toNat then true
    else if b.toNat < a.toNat then false
    else strLt as bs

/-- A `std::set<std::string>`: its elements in iteration order. -/
abbrev StrSet := List Str

/-- The call `s.insert(w)`: `w` goes before the first larger element, and is
dropped when an equivalent element is already there. -/
def setInsert (w : Str) : StrSet → StrSet
  | [] => [w]
  | x :: xs =>
    if strLt w x then w :: x :: xs
    else if strLt x w then x :: setInsert w xs
    else x :: xs

/-- The test `s.find(w) != s.end()`: some element is equivalent to `w`. -/
def setFind (w : Str) (s : StrSet) : Bool :=
  s.any (fun x => !strLt x w && !strLt w x)

/-- The iteration order of a set: strictly increasing. -/
def SetSorted (s : StrSet) : Prop := s.Pairwise (fun a b => strLt a b = true)

/-! ## Data model -/

/-- One turn: the guess and the pattern it got. -/
structure HistoryEntry where
  guess : Str
  pattern : Str
deriving DecidableEq, Repr

/-- The state machine of a game. -/
inductive GameState where
  | NOT_STARTED
  | PLAYING
  | WON
  | LOST
deriving DecidableEq, Repr

/-- The game settings. -/
structure Config where
  L : Int
  T : Int
  S : Int
  dict_words : List Str
deriving DecidableEq, Repr

/-- The exception `std::invalid_argument`, with its message. -/
structure invalid_argument where
  what : Str
deriving DecidableEq, Repr

/-- The three concrete classes derived from `IWordGame`. -/
inductive Variant where
  | TrivialWordle
  | ClassicWordle
  | HardWordle
deriving DecidableEq, Repr

/-- The data members of `IWordGame`. -/
structure IWordGame where
  config_ : Config
  secret_ : Str
  history_ : List HistoryEntry
  state_ : GameState
  current_round_ : Int
  is_universe_ : Bool
  dictionary_ : StrSet
deriving DecidableEq, Repr

/-! ## Dictionary builder -/

/-- The letters visited by `for (char c = 'a'; c <= 'z'; ++c)`. -/
def alphabet : List Char := (List.range 26).map (fun i => Char.ofNat (97 + i))

/-- The recursion `IWordGame::generateAllWords(current, pos)`; `current` is
passed by reference, so it is returned with the object. Each nested call uses
one unit of `fuel`. -/
def generateAllWords : Nat → IWordGame → Str → Nat → IWordGame × Str
  | 0, g, current, _ => (g, current)
  | fuel + 1, g, current, pos =>
    if (pos : Int) = g.config_.L then
      ({ g with dictionary_ := setInsert current g.dictionary_ }, current)
    else
      alphabet.foldl
        (fun st c => generateAllWords fuel st.1 (st.2.set pos c) (pos + 1))
        (g, current)

/-- Body of the copy loop of `buildDictionary`: a word of length `L` is
inserted, any other word is skipped. -/
def buildDictionaryStep (acc : IWordGame) (word : Str) : IWordGame :=
  if (word.length : Int) = acc.config_.L then
    { acc with dictionary_ := setInsert word acc.dictionary_ }
  else acc

/-- The member `IWordGame::buildDictionary()`. -/
def buildDictionary (g : IWordGame) : IWordGame :=
  let g1 := { g with dictionary_ := [] }
  let g2 := { g1 with is_universe_ := decide (g1.config_.S = 0) }
  if g2.is_universe_ then
    let temp : Str := List.replicate g2.config_.L.toNat 'a'
    (generateAllWords (g2.config_.L.toNat + 1) g2 temp 0).1
  else
    g2.config_.dict_words.foldl buildDictionaryStep g2

/-- The constructor `IWordGame::IWordGame(cfg)`. -/
def IWordGame.IWordGame (cfg : Config) : Except invalid_argument IWordGame :=
  if cfg.L ≤ 0 ∨ cfg.T ≤ 0 then
    Except.error ⟨"Config L and T must be positive".toList⟩
  else
    Except.ok (buildDictionary
      { config_ := cfg, secret_ := [], history_ := [], state_ := GameState.NOT_STARTED,
        current_round_ := 0, is_universe_ := false, dictionary_ := [] })

/-! ## Validity policies -/

/-- The loop `for (char c : w) if (c < 'a' || c > 'z') return false;`. -/
def allLowercase : Str → Bool
  | [] => true
  | c :: cs => if c < 'a' ∨ c > 'z' then false else allLowercase cs

/-- The member `TrivialWordle::isValidWord`. -/
def TrivialWordle.isValidWord (g : IWordGame) (w : Str) : Bool :=
  if (w.length : Int) ≠ g.config_.L then false
  else allLowercase w

/-- The member `ClassicWordle::isValidWord`. -/
def ClassicWordle.isValidWord (g : IWordGame) (w : Str) : Bool :=
  setFind w g.dictionary_

/-- The member `HardWordle::isValidWord`. -/
def HardWordle.isValidWord (g : IWordGame) (w : Str) : Bool :=
  setFind w g.dictionary_

/-- The member `TrivialWordle::isValidGuess`. -/
def TrivialWordle.isValidGuess (g : IWordGame) (guess : Str) : Bool :=
  TrivialWordle.isValidWord g guess

/-- The member `ClassicWordle::isValidGuess`. -/
def ClassicWordle.isValidGuess (g : IWordGame) (guess : Str) : Bool :=
  ClassicWordle.isValidWord g guess

/-- The history loop of `HardWordle::isValidGuess`, leaving at the first
entry whose projected feedback differs from the recorded pattern. -/
def HardWordle.historyLoop (guess : Str) : List HistoryEntry → Bool
  | [] => true
  | entry :: rest =>
    if feedback guess entry.guess ≠ entry.pattern then false
    else HardWordle.historyLoop guess rest

/-- The member `HardWordle::isValidGuess`. -/
def HardWordle.isValidGuess (g : IWordGame) (guess : Str) : Bool :=
  if !HardWordle.isValidWord g guess then false
  else HardWordle.historyLoop guess g.history_

/-- Virtual dispatch of `isValidWord`. -/
def isValidWord : Variant → IWordGame → Str → Bool
  | Variant.TrivialWordle => TrivialWordle.isValidWord
  | Variant.ClassicWordle => ClassicWordle.isValidWord
  | Variant.HardWordle => HardWordle.isValidWord

/-- Virtual dispatch of `isValidGuess`. -/
def isValidGuess : Variant → IWordGame → Str → Bool
  | Variant.TrivialWordle => TrivialWordle.isValidGuess
  | Variant.ClassicWordle => ClassicWordle.isValidGuess
  | Variant.HardWordle => HardWordle.isValidGuess

/-! ## Game state machine -/

/-- The member `IWordGame::updateGameState(last_guess)`. -/
def updateGameState (g : IWordGame) (last_guess : Str) : IWordGame :=
  if last_guess = g.secret_ then { g with state_ := GameState.WON }
  else if g.current_round_ ≥ g.config_.T then { g with state_ := GameState.LOST }
  else g

/-- The member `IWordGame::start(secret)`. -/
def start (g : IWordGame) (secret : Str) : IWordGame :=
  { g with secret_ := secret, history_ := [], current_round_ := 0,
           state_ := GameState.PLAYING }

/-- The exception thrown by `makeGuess` outside of play. -/
def invalidState : invalid_argument := ⟨"Invalid gamestate".toList⟩

/-- The exception thrown by `makeGuess` for a rejected guess. -/
def invalidGuess (guess : Str) : invalid_argument := ⟨"Invalid guess: ".toList ++ guess⟩

/-- The member `IWordGame::makeGuess(guess)`: the returned pattern or the
exception thrown, and the object after the call. -/
def makeGuess (v : Variant) (g : IWordGame) (guess : Str) :
    Except invalid_argument Str × IWordGame :=
  if g.state_ ≠ GameState.PLAYING then (Except.error invalidState, g)
  else if !isValidGuess v g guess then (Except.error (invalidGuess guess), g)
  else
    let pattern := feedback g.secret_ guess
    let g1 := { g with history_ := g.history_ ++ [HistoryEntry.mk guess pattern] }
    let g2 := { g1 with current_round_ := g1.current_round_ + 1 }
    let g3 := updateGameState g2 guess
    (Except.ok pattern, g3)

/-- The member `IWordGame::getState`. -/
def getState (g : IWordGame) : GameState := g.state_

/-- The member `IWordGame::isGameOver`. -/
def isGameOver (g : IWordGame) : Bool :=
  g.state_ = GameState.WON || g.state_ = GameState.LOST

/-- The member `IWordGame::hasWon`. -/
def hasWon (g : IWordGame) : Bool := g.state_ = GameState.WON

/-- The member `IWordGame::hasLost`. -/
def hasLost (g : IWordGame) : Bool := g.state_ = GameState.LOST

/-- The member `IWordGame::getCurrentRound`. -/
def getCurrentRound (g : IWordGame) : Int := g.current_round_

/-- The member `IWordGame::getRemainingTries`. -/
def getRemainingTries (g : IWordGame) : Int := max 0 (g.config_.T - g.current_round_)

/-- The member `IWordGame::getHistory`. -/
def getHistory (g : IWordGame) : List HistoryEntry := g.history_

/-- The inner loop of `getRemainingWords`: `possible` after scanning the
history for one candidate. -/
def possibleSecret (candidate : Str) : List HistoryEntry → Bool
  | [] => true
  | entry :: rest =>
    if feedback candidate entry.guess ≠ entry.pattern then false
    else possibleSecret candidate rest

/-- The member `IWordGame::getRemainingWords`. -/
def getRemainingWords (g : IWordGame) : Int :=
  g.dictionary_.foldl
    (fun count candidate => if possibleSecret candidate g.history_ then count + 1 else count) 0

/-! ## Solver -/

/-- Body of pass 1 of `MySolver::generatePattern` at index `i`. -/
def generatePatternPass1Step (candidate guess : Str) (st : Str × CharMap) (i : Nat) :
    Str × CharMap :=
  if at_ candidate i = at_ guess i then
    (st.1.set i 'G', st.2.decr (at_ candidate i))
  else st

/-- Body of pass 2 of `MySolver::generatePattern` at index `i`. -/
def generatePatternPass2Step (guess : Str) (st : Str × CharMap) (i : Nat) : Str × CharMap :=
  if at_ st.1 i ≠ 'G' then
    if st.2 (at_ guess i) > 0 then
      (st.1.set i 'Y', st.2.decr (at_ guess i))
    else st
  else st

/-- The member `MySolver::generatePattern(candidate, guess)`. -/
def generatePattern (candidate guess : Str) : Str :=
  let res : Str := List.replicate guess.length 'B'
  let counts := candidate.foldl CharMap.incr CharMap.empty
  let s1 := (List.range guess.length).foldl (generatePatternPass1Step candidate guess) (res, counts)
  let s2 := (List.range guess.length).foldl (generatePatternPass2Step guess) s1
  s2.1

/-- The data members of `MySolver` (with those of `ISolver`). -/
structure MySolver where
  config_ : Config
  candidates_ : StrSet
deriving DecidableEq, Repr

/-- The member `MySolver::reset()`. -/
def MySolver.reset (s : MySolver) : MySolver :=
  s.config_.dict_words.foldl
    (fun acc word => { acc with candidates_ := setInsert word acc.candidates_ })
    { s with candidates_ := [] }

/-- The member `MySolver::chooseBestGuess()`. -/
def MySolver.chooseBestGuess (s : MySolver) : Str :=
  match s.candidates_ with
  | [] => []
  | first :: _ => first

/-- The erase loop of `MySolver::update` over the candidates in order. -/
def updateLoop (guess pattern : Str) : StrSet → StrSet
  | [] => []
  | c :: rest =>
    if generatePattern c guess ≠ pattern then updateLoop guess pattern rest
    else c :: updateLoop guess pattern rest

/-- The member `MySolver::update(guess, pattern)`. -/
def MySolver.update (s : MySolver) (guess pattern : Str) : MySolver :=
  { s with candidates_ := updateLoop guess pattern s.candidates_ }

/-! ## Reference definition of the feedback pattern

The two-pass rule written position by position, as the specification words
it; `feedback` above is the code. -/

/-- Position `i` is an exact match. -/
def isGreen (secret guess : Str) (i : Nat) : Bool :=
  decide (at_ guess i = at_ secret i)

/-- Number of exact-match positions of the whole word that hold the letter `c`. -/
def greensOf (secret guess : Str) (c : Char) : Nat :=
  (List.range secret.length).countP (fun k => isGreen secret guess k && decide (at_ guess k = c))

/-- Number of positions `j < i` that are not exact matches and hold the letter `c`. -/
def nonGreenBefore (secret guess : Str) (c : Char) (i : Nat) : Nat :=
  (List.range i).countP (fun j => !isGreen secret guess j && decide (at_ guess j = c))

/-- Occurrences of `c` in the secret that are left after the exact matches. -/
def available (secret guess : Str) (c : Char) : Int :=
  (secret.count c : Int) - (greensOf secret guess c : Int)

/-- The mark of position `i` in the reference definition. -/
def refMark (secret guess : Str) (i : Nat) : Char :=
  if at_ guess i = at_ secret i then 'G'
  else if (nonGreenBefore secret guess (at_ guess i) i : Int)
      < available secret guess (at_ guess i) then 'Y'
  else 'B'

/-- The reference pattern: one mark per position of the secret. -/
def feedbackRef (secret guess : Str) : Str :=
  (List.range secret.length).map (refMark secret guess)

/-- Number of positions of the guess that hold `x` and are marked `G` or `Y`
in `pattern`. -/
def markedCount (guess pattern : Str) (x : Char) : Nat :=
  (List.range guess.length).countP
    (fun i => decide (at_ guess i = x) && (decide (at_ pattern i = 'G') || decide (at_ pattern i = 'Y')))

/-! ## Loop invariants of the two passes -/

/-- State of pass 1 after the indices below `k`. -/
def Pass1Inv (secret guess : Str) (k : Nat) (st : Str × CharMap) : Prop :=
  st.1 = (List.range secret.length).map
      (fun i => if i < k ∧ isGreen secret guess i = true then 'G' else 'B') ∧
  ∀ c, st.2 c = (secret.count c : Int)
      - ((List.range k).countP
          (fun j => isGreen secret guess j && decide (at_ guess j = c)) : Nat)

/-- State of pass 2 after the indices below `k`. -/
def Pass2Inv (secret guess : Str) (k : Nat) (st : Str × CharMap) : Prop :=
  st.1 = (List.range secret.length).map
      (fun i => if isGreen secret guess i = true then 'G'
                else if i < k then refMark secret guess i else 'B') ∧
  ∀ c, st.2 c = available secret guess c
      - min (nonGreenBefore secret guess c k : Int) (max (available secret guess c) 0)

/-! ## Concrete instances -/

/-- A configuration whose word list has a duplicate and a word of the wrong
length. -/
def sampleConfig : Config :=
  { L := 5, T := 1, S := 4,
    dict_words := ["zebra".toList, "crane".toList, "zebra".toList, "ab".toList] }

/-- The game built from `sampleConfig` and started on the secret "zebra". -/
def sampleGame : IWordGame :=
  { config_ := sampleConfig, secret_ := "zebra".toList, history_ := [],
    state_ := GameState.PLAYING, current_round_ := 0, is_universe_ := false,
    dictionary_ := ["crane".toList, "zebra".toList] }

/-- A hard-mode game with six tries on the words "abbey", "babes", "crane",
after the guess "babes" against the secret "abbey". -/
def sampleHardGame : IWordGame :=
  { config_ := { L := 5, T := 6, S := 3,
                 dict_words := ["abbey".toList, "babes".toList, "crane".toList] },
    secret_ := "abbey".toList,
    history_ := [HistoryEntry.mk "babes".toList "YYGGB".toList],
    state_ := GameState.PLAYING, current_round_ := 1, is_universe_ := false,
    dictionary_ := ["abbey".toList, "babes".toList, "crane".toList] }

/-- The exception thrown by the constructor for a non-positive `L` or `T`. -/
def invalidConfig : invalid_argument := ⟨"Config L and T must be positive".toList⟩

/-- A universe-mode configuration (`S == 0`) for words of one letter; its word
list is not used. -/
def universeConfig : Config :=
  { L := 1, T := 6, S := 0, dict_words := ["crane".toList] }

/-- The bookkeeping of a started game: the round counter counts the history
and stays within `T`, play goes on only below `T`, and a lost game has used
all `T` rounds. -/
def RoundInvariant (g : IWordGame) : Prop :=
  g.current_round_ = (g.history_.length : Int) ∧
  g.current_round_ ≤ g.config_.T ∧
  (g.state_ = GameState.PLAYING → g.current_round_ < g.config_.T) ∧
  (g.state_ = GameState.LOST → g.current_round_ = g.config_.T) ∧
  g.state_ ≠ GameState.NOT_STARTED

/-! ## Relating the judge of `wordle.cpp` to the game feedback -/

/-- The 26 counters of the judge hold what the letter map of the game holds
for the letters `'a'..'z'`. -/
def CountsAgree (m : List Int) (f : CharMap) : Prop :=
  m.length = 26 ∧
  ∀ c : Char, 97 ≤ c.toNat → c.toNat ≤ 122 → m.getD (c.toNat - 97) 0 = f c

/-- The judge starts from blanks where the game starts from `'B'`. -/
def blankForBlack (c : Char) : Char := if c = 'B' then ' ' else c

/-- The states of the two implementations during the green loops. -/
def GreenSim (sj : Str × List Int) (sf : Str × CharMap) : Prop :=
  sj.1.length = 5 ∧ sf.1.length = 5 ∧
  (∀ i, i < 5 → at_ sj.1 i = blankForBlack (at_ sf.1 i)) ∧
  CountsAgree sj.2 sf.2

/-- The states of the two implementations during the second loops, after the
indices below `k`. -/
def YellowSim (secret guess : Str) (k : Nat) (sj : Str × List Int) (sf : Str × CharMap) :
    Prop :=
  sj.1.length = 5 ∧ sf.1.length = 5 ∧
  (∀ i, i < 5 → at_ sj.1 i = if i < k then at_ sf.1 i else blankForBlack (at_ sf.1 i)) ∧
  CountsAgree sj.2 sf.2 ∧
  Pass2Inv secret guess k sf

/-- What holds of the game, the solver and the counter `guesses_made` at the
head of the solve loop, for a game with dictionary `D` and `T` tries. -/
def SolveInvariant (T : Int) (D : StrSet) (game : IWordGame) (solver : MySolver)
    (guesses_made : Int) : Prop :=
  RoundInvariant game ∧ game.config_.T = T ∧ game.dictionary_ = D ∧
  guesses_made = game.current_round_ ∧
  ∀ c ∈ solver.candidates_, c ∈ D ∧ c ≠ []

/-- The game the constructor builds from the configuration of the hard-mode
sample: six tries on the words "abbey", "babes", "crane". -/
def threeWordGame : IWordGame :=
  { config_ := sampleHardGame.config_, secret_ := [], history_ := [],
    state_ := GameState.NOT_STARTED, current_round_ := 0, is_universe_ := false,
    dictionary_ := ["abbey".toList, "babes".toList, "crane".toList] }

/-- What holds in addition at the head of the solve loop when the secret is a
dictionary word and `N`, the number of dictionary words, is within the tries:
while the game is in play the secret is a candidate and the rounds used plus
the candidates left are at most `N`; the game is never lost. -/
def WinInvariant (N : Int) (secret : Str) (game : IWordGame) (solver : MySolver) : Prop :=
  game.secret_ = secret ∧
  (∀ c ∈ solver.candidates_, c.length = secret.length) ∧
  (game.state_ = GameState.PLAYING →
    secret ∈ solver.candidates_ ∧
    game.current_round_ + (solver.candidates_.length : Int) ≤ N) ∧
  game.state_ ≠ GameState.LOST ∧
  (game.state_ = GameState.WON → 1 ≤ game.current_round_ ∧ game.current_round_ ≤ N)

/-- What holds of a hard-mode game played on `secret` over the dictionary `D`:
every recorded pattern is the feedback of the secret for the recorded guess. -/
def TruthfulHistory (secret : Str) (D : StrSet) (g : IWordGame) : Prop :=
  g.secret_ = secret ∧ g.dictionary_ = D ∧
  ∀ e ∈ g.history_, e.pattern = feedback secret e.guess

/-! ## Universe mode: the order of generation -/

/-- The words handed to `dictionary_.insert` by `generateAllWords(current, pos)`
for word length `L`, in call order, with `current` after the call: the
recursion of `generateAllWords`, recording each insertion instead of
performing it. -/
def generateAllWordsCalls (L : Int) : Nat → Str → Nat → List Str × Str
  | 0, current, _ => ([], current)
  | fuel + 1, current, pos =>
    if (pos : Int) = L then ([current], current)
    else
      alphabet.foldl
        (fun st c =>
          ((st.1 ++ (generateAllWordsCalls L fuel (st.2.set pos c) (pos + 1)).1),
           (generateAllWordsCalls L fuel (st.2.set pos c) (pos + 1)).2))
        ([], current)

/-- All strings of `n` letters of `'a'..'z'`, in lexicographic order. -/
def lowercaseWords : Nat → List Str
  | 0 => [[]]
  | n + 1 => alphabet.flatMap (fun c => (lowercaseWords n).map (fun s => c :: s))

/-! ## The solve loop of `ISolver` -/

/-- The `while` loop of `ISolver::solve` with the objects it works on and the
counter `guesses_made`; each iteration uses one unit of fuel, and `none` is a
loop that has not ended when the fuel is spent. A guess that `makeGuess`
refuses is caught and the loop continues. -/
def solveLoop (v : Variant) : Nat → IWordGame → MySolver → Int →
    Option (IWordGame × MySolver × Int)
  | 0, _, _, _ => none
  | fuel + 1, game, solver, guesses_made =>
    if isGameOver game then some (game, solver, guesses_made)
    else
      if solver.chooseBestGuess.isEmpty then some (game, solver, guesses_made)
      else
        match (makeGuess v game solver.chooseBestGuess).1 with
        | Except.error _ =>
          solveLoop v fuel (makeGuess v game solver.chooseBestGuess).2 solver guesses_made
        | Except.ok pattern =>
          solveLoop v fuel (makeGuess v game solver.chooseBestGuess).2
            (solver.update solver.chooseBestGuess pattern) (guesses_made + 1)

/-- The member `ISolver::solve(game, secret)`: the returned number with the
game and the solver after the call. -/
def solve (v : Variant) (fuel : Nat) (solver : MySolver) (game : IWordGame) (secret : Str) :
    Option (Int × IWordGame × MySolver) :=
  (solveLoop v fuel (start game secret) solver.reset 0).map
    (fun r => (if hasWon r.1 then r.2.2 else -1, r.1, r.2.1))

/-! ## Loops over an index range -/

/-- A property that holds before a counted loop and is carried by its body
holds after the loop. -/
theorem foldl_range_invariant {σ : Type} (f : σ → Nat → σ) (P : Nat → σ → Prop) (s0 : σ)
    (n : Nat) (h0 : P 0 s0) (hstep : ∀ k s, k < n → P k s → P (k + 1) (f s k)) :
    P n ((List.range n).foldl f s0) := by
  have key : ∀ m, m ≤ n → P m ((List.range m).foldl f s0) := by
    intro m
    induction m with
    | zero => intro _; simpa using h0
    | succ m ih =>
      intro hm
      rw [List.range_succ, List.foldl_append]
      exact hstep m _ (by omega) (ih (by omega))
  exact key n (Nat.le_refl n)

/-- Counting below `k + 1` adds the index `k` when it qualifies. -/
theorem countP_range_succ (p : Nat → Bool) (k : Nat) :
    (List.range (k + 1)).countP p = (List.range k).countP p + (if p k then 1 else 0) := by
  rw [List.range_succ, List.countP_append, List.countP_singleton]

/-- Reading a tabulated string inside its range. -/
theorem at_map_range (f : Nat → Char) (n i : Nat) (h : i < n) :
    at_ ((List.range n).map f) i = f i := by
  simp [at_, List.getD_eq_getElem?_getD, List.getElem?_map, List.getElem?_range h]

/-- Writing one position of a tabulated string. -/
theorem set_map_range (f : Nat → Char) (n k : Nat) (v : Char) :
    ((List.range n).map f).set k v = (List.range n).map (fun i => if i = k then v else f i) := by
  apply List.ext_getElem?
  intro j
  rw [List.getElem?_set]
  by_cases hj : j < n
  · by_cases hk : k = j
    · subst hk
      simp [List.getElem?_map, List.getElem?_range hj, hj]
    · have hk2 : ¬ j = k := fun h => hk h.symm
      simp [List.getElem?_map, List.getElem?_range hj, hk, hk2]
  · have h1 : (List.range n)[j]? = none := by
      apply List.getElem?_eq_none; simpa using Nat.le_of_not_lt hj
    by_cases hk : k = j
    · subst hk
      simp [List.getElem?_map, h1, hj]
    · simp [List.getElem?_map, h1, hk]

/-- Two tabulated strings agree when their tables agree inside the range. -/
theorem map_range_congr (f g : Nat → Char) (n : Nat) (h : ∀ i, i < n → f i = g i) :
    (List.range n).map f = (List.range n).map g := by
  apply List.map_congr_left
  intro i hi
  exact h i (List.mem_range.mp hi)

/-- The letter counter holds the number of occurrences of each letter. -/
theorem foldl_incr_count (secret : Str) (m : CharMap) (c : Char) :
    secret.foldl CharMap.incr m c = m c + (secret.count c : Int) := by
  induction secret generalizing m with
  | nil => simp
  | cons a rest ih =>
    rw [List.foldl_cons, ih, List.count_cons]
    by_cases h : c = a
    · subst h; simp [CharMap.incr]; omega
    · have h2 : ¬ a = c := fun e => h e.symm
      simp [CharMap.incr, h, h2]

/-- The counter built by `countLetters`. -/
theorem countLetters_eq (secret : Str) (c : Char) :
    countLetters secret c = (secret.count c : Int) := by
  unfold countLetters
  rw [foldl_incr_count]
  simp [CharMap.empty]

/-- A constant string is a tabulated string. -/
theorem replicate_eq_map_range (n : Nat) (v : Char) :
    List.replicate n v = (List.range n).map (fun _ => v) := by
  apply List.ext_getElem?
  intro j
  by_cases hj : j < n
  · simp [List.getElem?_replicate, List.getElem?_map, List.getElem?_range hj, hj]
  · have h1 : (List.range n)[j]? = none := by
      apply List.getElem?_eq_none; simpa using Nat.le_of_not_lt hj
    simp [List.getElem?_replicate, List.getElem?_map, h1, hj]

/-! ## The two passes of `feedback` -/

theorem pass1_step (secret guess : Str) (k : Nat) (st : Str × CharMap)
    (hst : Pass1Inv secret guess k st) :
    Pass1Inv secret guess (k + 1) (feedbackPass1Step secret guess st k) := by
  obtain ⟨h1, h2⟩ := hst
  unfold feedbackPass1Step
  by_cases hg : at_ guess k = at_ secret k
  · have hgb : isGreen secret guess k = true := by simp [isGreen, hg]
    rw [if_pos hg]
    constructor
    · show st.1.set k 'G' = _
      rw [h1, set_map_range]
      apply map_range_congr
      intro i _
      by_cases hik : i = k
      · subst hik; simp [hgb]
      · have : (i < k + 1) = (i < k) := by
          apply propext; constructor <;> intro h <;> omega
        simp [hik, this]
    · intro c
      show CharMap.decr st.2 (at_ guess k) c = _
      rw [countP_range_succ]
      by_cases hc : c = at_ guess k
      · subst hc
        simp [CharMap.decr, h2, hgb]
        omega
      · have hc2 : ¬ at_ guess k = c := fun e => hc e.symm
        simp [CharMap.decr, hc, hc2, h2]
  · have hgb : isGreen secret guess k = false := by simp [isGreen, hg]
    rw [if_neg hg]
    constructor
    · rw [h1]
      apply map_range_congr
      intro i _
      by_cases hik : i = k
      · subst hik; simp [hgb]
      · have : (i < k + 1) = (i < k) := by
          apply propext; constructor <;> intro h <;> omega
        simp [this]
    · intro c
      rw [countP_range_succ, h2]
      simp [hgb]

/-- Pass 1 marks exactly the exact matches and leaves in the counter what the
exact matches did not use. -/
theorem pass1_result (secret guess : Str) :
    Pass2Inv secret guess 0
      ((List.range secret.length).foldl (feedbackPass1Step secret guess)
        (List.replicate secret.length 'B', countLetters secret)) := by
  have h := foldl_range_invariant (feedbackPass1Step secret guess) (Pass1Inv secret guess)
    (List.replicate secret.length 'B', countLetters secret) secret.length
    (by
      constructor
      · show List.replicate secret.length 'B' = _
        rw [replicate_eq_map_range]
        apply map_range_congr
        intro i _
        simp
      · intro c
        show countLetters secret c = _
        rw [countLetters_eq]
        simp)
    (fun k s _ hs => pass1_step secret guess k s hs)
  obtain ⟨h1, h2⟩ := h
  constructor
  · rw [h1]
    apply map_range_congr
    intro i hi
    simp [hi]
  · intro c
    rw [h2]
    simp only [nonGreenBefore, available, greensOf, List.range_zero, List.countP_nil]
    omega

theorem nonGreenBefore_succ (secret guess : Str) (c : Char) (k : Nat) :
    nonGreenBefore secret guess c (k + 1) = nonGreenBefore secret guess c k
      + (if isGreen secret guess k = false ∧ at_ guess k = c then 1 else 0) := by
  unfold nonGreenBefore
  rw [countP_range_succ]
  by_cases hg : isGreen secret guess k = true <;> by_cases hc : at_ guess k = c <;>
    simp [hg, hc]

theorem pass2_step (secret guess : Str) (k : Nat) (st : Str × CharMap)
    (hk : k < secret.length) (hst : Pass2Inv secret guess k st) :
    Pass2Inv secret guess (k + 1) (feedbackPass2Step guess st k) := by
  obtain ⟨h1, h2⟩ := hst
  have hat : at_ st.1 k = if isGreen secret guess k = true then 'G' else 'B' := by
    rw [h1, at_map_range _ _ _ hk]
    simp
  have hlt : ∀ i, i ≠ k → ((i < k + 1) = (i < k)) := by
    intro i hik
    apply propext; constructor <;> intro h <;> omega
  unfold feedbackPass2Step
  by_cases hg : isGreen secret guess k = true
  · -- an exact match is skipped
    have hG : ¬ (at_ st.1 k ≠ 'G') := by rw [hat, if_pos hg]; simp
    rw [if_neg hG]
    constructor
    · rw [h1]
      apply map_range_congr
      intro i _
      by_cases hik : i = k
      · subst hik; simp [hg]
      · simp [hlt i hik]
    · intro c
      rw [h2, nonGreenBefore_succ]
      simp [hg]
  · have hgf : isGreen secret guess k = false := by simpa using hg
    have hne : at_ guess k ≠ at_ secret k := by
      intro e; apply hg; simp [isGreen, e]
    have hG : at_ st.1 k ≠ 'G' := by rw [hat, if_neg hg]; decide
    rw [if_pos hG]
    have hcnt := h2 (at_ guess k)
    by_cases hpos : st.2 (at_ guess k) > 0
    · rw [if_pos hpos]
      have hY : (nonGreenBefore secret guess (at_ guess k) k : Int)
          < available secret guess (at_ guess k) := by omega
      constructor
      · show st.1.set k 'Y' = _
        rw [h1, set_map_range]
        apply map_range_congr
        intro i _
        by_cases hik : i = k
        · subst hik
          simp [hg, refMark, hne, hY]
        · simp [hik, hlt i hik]
      · intro c
        show CharMap.decr st.2 (at_ guess k) c = _
        rw [nonGreenBefore_succ]
        by_cases hc : c = at_ guess k
        · subst hc
          simp only [CharMap.decr, if_true, hgf, and_self]
          rw [hcnt]
          push_cast
          omega
        · have hc2 : ¬ at_ guess k = c := fun e => hc e.symm
          simp [CharMap.decr, hc, hc2, h2]
    · rw [if_neg hpos]
      have hB : ¬ ((nonGreenBefore secret guess (at_ guess k) k : Int)
          < available secret guess (at_ guess k)) := by omega
      constructor
      · rw [h1]
        apply map_range_congr
        intro i _
        by_cases hik : i = k
        · subst hik
          simp [hg, refMark, hne, hB]
        · simp [hlt i hik]
      · intro c
        rw [nonGreenBefore_succ]
        by_cases hc : c = at_ guess k
        · subst hc
          simp only [hgf, and_self, if_true]
          rw [hcnt]
          push_cast
          omega
        · have hc2 : ¬ at_ guess k = c := fun e => hc e.symm
          simp [hc2, h2]

/-- The code computes the reference pattern (no assumption on the lengths:
both read the guess through `at_`). -/
theorem feedback_eq_feedbackRef (secret guess : Str) :
    feedback secret guess = feedbackRef secret guess := by
  have h := foldl_range_invariant (feedbackPass2Step guess) (Pass2Inv secret guess)
    ((List.range secret.length).foldl (feedbackPass1Step secret guess)
        (List.replicate secret.length 'B', countLetters secret)) secret.length
    (pass1_result secret guess)
    (fun k s hk hs => pass2_step secret guess k s hk hs)
  show ((List.range secret.length).foldl (feedbackPass2Step guess)
    ((List.range secret.length).foldl (feedbackPass1Step secret guess)
        (List.replicate secret.length 'B', countLetters secret))).1 = _
  rw [h.1]
  unfold feedbackRef
  apply map_range_congr
  intro i hi
  by_cases hg : isGreen secret guess i = true
  · have : at_ guess i = at_ secret i := by simpa [isGreen] using hg
    simp [hg, refMark, this]
  · simp [hg, hi]

/-- The mark the code leaves at a position of the secret. -/
theorem at_feedback (secret guess : Str) (i : Nat) (hi : i < secret.length) :
    at_ (feedback secret guess) i = refMark secret guess i := by
  rw [feedback_eq_feedbackRef]
  exact at_map_range _ _ _ hi

/-- The pattern has one mark per position of the secret. -/
theorem feedback_length (secret guess : Str) :
    (feedback secret guess).length = secret.length := by
  rw [feedback_eq_feedbackRef]
  simp [feedbackRef]

/-- A string is the table of its characters. -/
theorem eq_map_range_at (l : Str) : l = (List.range l.length).map (at_ l) := by
  apply List.ext_getElem?
  intro j
  by_cases hj : j < l.length
  · simp [List.getElem?_map, List.getElem?_range hj, at_, List.getD_eq_getElem?_getD,
      List.getElem?_eq_getElem hj]
  · have h1 : (List.range l.length)[j]? = none := by
      apply List.getElem?_eq_none; simpa using Nat.le_of_not_lt hj
    have h2 : l[j]? = none := by
      apply List.getElem?_eq_none; exact Nat.le_of_not_lt hj
    simp [List.getElem?_map, h1, h2]

/-- Occurrences of a letter, counted by position. -/
theorem count_eq_countP_range (l : Str) (x : Char) :
    l.count x = (List.range l.length).countP (fun k => decide (at_ l k = x)) := by
  conv_lhs => rw [eq_map_range_at l]
  rw [List.count, List.countP_map]
  apply List.countP_congr
  intro k _
  simp

/-- The exact matches holding a letter are occurrences of it in the secret. -/
theorem greensOf_le_count (secret guess : Str) (x : Char) :
    greensOf secret guess x ≤ secret.count x := by
  rw [count_eq_countP_range, greensOf]
  apply List.countP_mono_left
  intro k _ hk
  simp only [isGreen, Bool.and_eq_true, decide_eq_true_eq] at hk
  simp only [decide_eq_true_eq]
  rw [← hk.1, hk.2]

/-- Among the positions below `k`, the marks given to the letter `x` are its
exact matches plus at most what the exact matches left available. -/
theorem marked_below_bound (secret guess : Str) (x : Char) (k : Nat) (hk : k ≤ secret.length) :
    (((List.range k).countP
        (fun i => decide (at_ guess i = x) &&
          (decide (at_ (feedback secret guess) i = 'G') ||
           decide (at_ (feedback secret guess) i = 'Y')) ) : Nat) : Int)
      ≤ ((List.range k).countP
          (fun j => isGreen secret guess j && decide (at_ guess j = x)) : Nat)
        + min (nonGreenBefore secret guess x k : Int) (max (available secret guess x) 0) := by
  induction k with
  | zero => simp [nonGreenBefore]
  | succ k ih =>
    have ih2 := ih (by omega)
    have hfb := at_feedback secret guess k (by omega)
    rw [countP_range_succ, countP_range_succ, nonGreenBefore_succ, hfb]
    by_cases hx : at_ guess k = x
    · subst hx
      by_cases hg : at_ guess k = at_ secret k
      · have hgb : isGreen secret guess k = true := by simp [isGreen, hg]
        have hm : refMark secret guess k = 'G' := by simp [refMark, hg]
        rw [hm]
        simp [hgb]
        omega
      · have hgb : isGreen secret guess k = false := by simp [isGreen, hg]
        by_cases hY : (nonGreenBefore secret guess (at_ guess k) k : Int)
            < available secret guess (at_ guess k)
        · have hm : refMark secret guess k = 'Y' := by simp [refMark, hg, hY]
          rw [hm]
          simp [hgb]
          omega
        · have hm : refMark secret guess k = 'B' := by simp [refMark, hg, hY]
          rw [hm]
          simp [hgb]
          omega
    · simp [hx]
      omega

/-! ## The string order and ordered sets -/

theorem strLt_irrefl (a : Str) : strLt a a = false := by
  induction a with
  | nil => rfl
  | cons x xs ih => simp [strLt, ih]

theorem strLt_trans (a b c : Str) (hab : strLt a b = true) (hbc : strLt b c = true) :
    strLt a c = true := by
  induction a generalizing b c with
  | nil =>
    cases b with
    | nil => simp [strLt] at hab
    | cons y ys =>
      cases c with
      | nil => simp [strLt] at hbc
      | cons z zs => simp [strLt]
  | cons x xs ih =>
    cases b with
    | nil => simp [strLt] at hab
    | cons y ys =>
      cases c with
      | nil => simp [strLt] at hbc
      | cons z zs =>
        simp only [strLt] at hab hbc ⊢
        by_cases h1 : x.toNat < y.toNat
        · by_cases h2 : y.toNat < z.toNat
          · have : x.toNat < z.toNat := by omega
            simp [this]
          · by_cases h3 : z.toNat < y.toNat
            · simp [h2, h3] at hbc
            · have : x.toNat < z.toNat := by omega
              simp [this]
        · by_cases h1b : y.toNat < x.toNat
          · simp [h1, h1b] at hab
          · simp only [h1, h1b, if_false] at hab
            by_cases h2 : y.toNat < z.toNat
            · have : x.toNat < z.toNat := by omega
              simp [this]
            · by_cases h3 : z.toNat < y.toNat
              · simp [h2, h3] at hbc
              · simp only [h2, h3, if_false] at hbc
                have e1 : ¬ x.toNat < z.toNat := by omega
                have e2 : ¬ z.toNat < x.toNat := by omega
                simp only [e1, e2, if_false]
                exact ih ys zs hab hbc

/-- Characters with the same code are the same character. -/
theorem char_eq_of_toNat_eq (x y : Char) (h : x.toNat = y.toNat) : x = y := by
  apply Char.ext
  apply UInt32.ext
  exact h

/-- Two strings neither of which is below the other are the same string. -/
theorem eq_of_not_strLt (a b : Str) (h1 : strLt a b = false) (h2 : strLt b a = false) :
    a = b := by
  induction a generalizing b with
  | nil =>
    cases b with
    | nil => rfl
    | cons y ys => simp [strLt] at h1
  | cons x xs ih =>
    cases b with
    | nil => simp [strLt] at h2
    | cons y ys =>
      simp only [strLt] at h1 h2
      by_cases hxy : x.toNat < y.toNat
      · simp [hxy] at h1
      · by_cases hyx : y.toNat < x.toNat
        · simp [hyx] at h2
        · simp only [hxy, hyx, if_false] at h1 h2
          have hc : x = y := char_eq_of_toNat_eq x y (by omega)
          rw [hc, ih ys h1 h2]

/-- Lookup in a set is membership. -/
theorem setFind_iff_mem (w : Str) (s : StrSet) : setFind w s = true ↔ w ∈ s := by
  unfold setFind
  rw [List.any_eq_true]
  constructor
  · rintro ⟨x, hx, hxw⟩
    simp only [Bool.and_eq_true, Bool.not_eq_true'] at hxw
    have : x = w := eq_of_not_strLt x w hxw.1 hxw.2
    rw [← this]; exact hx
  · intro hw
    exact ⟨w, hw, by simp [strLt_irrefl]⟩

/-- Insertion adds the word and nothing else. -/
theorem mem_setInsert (w x : Str) (s : StrSet) : x ∈ setInsert w s ↔ x = w ∨ x ∈ s := by
  induction s with
  | nil => simp [setInsert]
  | cons y ys ih =>
    unfold setInsert
    by_cases h1 : strLt w y = true
    · simp [h1]
    · have h1f : strLt w y = false := by simpa using h1
      by_cases h2 : strLt y w = true
      · simp only [h1f, h2, if_true, Bool.false_eq_true, if_false, List.mem_cons, ih]
        tauto
      · have h2f : strLt y w = false := by simpa using h2
        have : w = y := eq_of_not_strLt w y h1f h2f
        simp only [h1f, h2f, Bool.false_eq_true, if_false, List.mem_cons]
        subst this
        tauto

/-- Insertion keeps the set strictly increasing. -/
theorem setInsert_sorted (w : Str) (s : StrSet) (hs : SetSorted s) :
    SetSorted (setInsert w s) := by
  induction s with
  | nil => simp [setInsert, SetSorted]
  | cons y ys ih =>
    unfold SetSorted at hs ⊢
    rw [List.pairwise_cons] at hs
    unfold setInsert
    by_cases h1 : strLt w y = true
    · simp only [h1, if_true]
      rw [List.pairwise_cons]
      refine ⟨?_, List.pairwise_cons.mpr hs⟩
      intro z hz
      rcases List.mem_cons.mp hz with hzy | hzy
      · rw [hzy]; exact h1
      · exact strLt_trans w y z h1 (hs.1 z hzy)
    · have h1f : strLt w y = false := by simpa using h1
      by_cases h2 : strLt y w = true
      · simp only [h1f, h2, if_true, Bool.false_eq_true, if_false]
        rw [List.pairwise_cons]
        refine ⟨?_, ih hs.2⟩
        intro z hz
        rcases (mem_setInsert w z ys).mp hz with hzw | hzy
        · rw [hzw]; exact h2
        · exact hs.1 z hzy
      · have h2f : strLt y w = false := by simpa using h2
        simp only [h1f, h2f, Bool.false_eq_true, if_false]
        exact List.pairwise_cons.mpr hs

/-- A strictly increasing set lists no word twice. -/
theorem nodup_of_sorted (s : StrSet) (hs : SetSorted s) : s.Nodup := by
  unfold SetSorted at hs
  unfold List.Nodup
  apply List.Pairwise.imp _ hs
  intro a b hab e
  rw [e, strLt_irrefl] at hab
  exact Bool.false_ne_true hab

/-! ## The dictionary builder -/

/-- The copy loop of `buildDictionary` adds the words of length `L`, keeps the
set ordered and touches nothing else. -/
theorem buildLoop_spec (ws : List Str) (g : IWordGame) :
    (ws.foldl buildDictionaryStep g).config_ = g.config_ ∧
    (ws.foldl buildDictionaryStep g).state_ = g.state_ ∧
    (ws.foldl buildDictionaryStep g).current_round_ = g.current_round_ ∧
    (∀ w, w ∈ (ws.foldl buildDictionaryStep g).dictionary_ ↔
        w ∈ g.dictionary_ ∨ (w ∈ ws ∧ (w.length : Int) = g.config_.L)) ∧
    (SetSorted g.dictionary_ → SetSorted (ws.foldl buildDictionaryStep g).dictionary_) := by
  induction ws generalizing g with
  | nil => simp
  | cons a rest ih =>
    rw [List.foldl_cons]
    by_cases ha : (a.length : Int) = g.config_.L
    · have hstep : buildDictionaryStep g a
          = { g with dictionary_ := setInsert a g.dictionary_ } := by
        unfold buildDictionaryStep
        rw [if_pos ha]
      rw [hstep]
      obtain ⟨i1, i2, i3, i4, i5⟩ :=
        ih { g with dictionary_ := setInsert a g.dictionary_ }
      refine ⟨i1, i2, i3, ?_, ?_⟩
      · intro w
        rw [i4 w]
        show w ∈ setInsert a g.dictionary_ ∨ (w ∈ rest ∧ (w.length : Int) = g.config_.L) ↔ _
        rw [mem_setInsert, List.mem_cons]
        constructor
        · rintro ((h | h) | ⟨h1, h2⟩)
          · right; exact ⟨Or.inl h, by rw [h]; exact ha⟩
          · left; exact h
          · right; exact ⟨Or.inr h1, h2⟩
        · rintro (h | ⟨h1 | h1, h2⟩)
          · left; right; exact h
          · left; left; exact h1
          · right; exact ⟨h1, h2⟩
      · intro hs
        exact i5 (setInsert_sorted a g.dictionary_ hs)
    · have hstep : buildDictionaryStep g a = g := by
        unfold buildDictionaryStep
        rw [if_neg ha]
      rw [hstep]
      obtain ⟨i1, i2, i3, i4, i5⟩ := ih g
      refine ⟨i1, i2, i3, ?_, i5⟩
      intro w
      rw [i4 w, List.mem_cons]
      constructor
      · rintro (h | ⟨h1, h2⟩)
        · left; exact h
        · right; exact ⟨Or.inr h1, h2⟩
      · rintro (h | ⟨h1 | h1, h2⟩)
        · left; exact h
        · exfalso; apply ha; rw [← h1]; exact h2
        · right; exact ⟨h1, h2⟩

/-! ## The solver's pattern routine -/

theorem generatePatternPass1Step_eq (candidate guess : Str) :
    generatePatternPass1Step candidate guess = feedbackPass1Step candidate guess := by
  funext st i
  unfold generatePatternPass1Step feedbackPass1Step
  by_cases h : at_ candidate i = at_ guess i
  · rw [if_pos h, if_pos h.symm, h]
  · have h2 : ¬ at_ guess i = at_ candidate i := fun e => h e.symm
    rw [if_neg h, if_neg h2]

/-- On words of one length the solver's routine is the game's feedback. -/
theorem generatePattern_eq_feedback (candidate guess : Str)
    (h : candidate.length = guess.length) :
    generatePattern candidate guess = feedback candidate guess := by
  unfold generatePattern feedback countLetters
  simp only [generatePatternPass1Step_eq, h]
  rfl

/-- The erase loop keeps the candidates whose pattern is the observed one. -/
theorem updateLoop_eq_filter (guess pattern : Str) (cands : StrSet) :
    updateLoop guess pattern cands
      = cands.filter (fun c => decide (generatePattern c guess = pattern)) := by
  induction cands with
  | nil => rfl
  | cons c rest ih =>
    unfold updateLoop
    by_cases hc : generatePattern c guess = pattern
    · simp [hc, ih]
    · simp [hc, ih]

/-! ## Feedback engine: the claims -/

/-- C1: for a secret and a guess of equal length `L`, `feedback` returns a
string of length `L` over the marks G, Y, B, and it is the two-pass reference
pattern: position `i` is G exactly when `guess[i] = secret[i]`; a position that
is not G is Y exactly when the number of earlier non-G positions holding the
same letter is below the occurrences of that letter in the secret minus the
number of G positions holding it; every other position is B. -/
theorem feedback_is_two_pass_reference (secret guess : Str)
    (h : secret.length = guess.length) :
    (feedback secret guess).length = guess.length ∧
    (∀ m ∈ feedback secret guess, m = 'G' ∨ m = 'Y' ∨ m = 'B') ∧
    feedback secret guess = feedbackRef secret guess ∧
    ∀ i, i < guess.length →
      (at_ (feedback secret guess) i = 'G' ↔ at_ guess i = at_ secret i) ∧
      (at_ (feedback secret guess) i = 'Y' ↔
        (at_ guess i ≠ at_ secret i ∧
          (nonGreenBefore secret guess (at_ guess i) i : Int)
            < (secret.count (at_ guess i) : Int)
              - (greensOf secret guess (at_ guess i) : Int))) ∧
      (at_ (feedback secret guess) i = 'B' ↔
        (at_ guess i ≠ at_ secret i ∧
          ¬ ((nonGreenBefore secret guess (at_ guess i) i : Int)
            < (secret.count (at_ guess i) : Int)
              - (greensOf secret guess (at_ guess i) : Int)))) := by
  refine ⟨by rw [feedback_length, h], ?_, feedback_eq_feedbackRef secret guess, ?_⟩
  · intro m hm
    rw [feedback_eq_feedbackRef, feedbackRef, List.mem_map] at hm
    obtain ⟨i, _, hi⟩ := hm
    rw [← hi]
    unfold refMark
    split
    · left; rfl
    · split
      · right; left; rfl
      · right; right; rfl
  · intro i hi
    rw [at_feedback secret guess i (by omega)]
    unfold refMark available
    by_cases hg : at_ guess i = at_ secret i
    · simp [hg]
    · by_cases hY : (nonGreenBefore secret guess (at_ guess i) i : Int)
          < (secret.count (at_ guess i) : Int) - (greensOf secret guess (at_ guess i) : Int)
      · simp only [hg, hY, if_true, if_false]
        simp [hg]
      · simp only [hg, hY, if_false]
        simp [hg]

/-- C1, the example of the specification: secret "crane", guess "crate". -/
theorem feedback_is_two_pass_reference_witness :
    "crane".toList.length = "crate".toList.length ∧
    feedback "crane".toList "crate".toList = feedbackRef "crane".toList "crate".toList ∧
    feedback "crane".toList "crate".toList = "GGGBG".toList ∧
    generate_feedback "crane".toList "crate".toList = some "GGGBG".toList :=
  ⟨by decide,
   (feedback_is_two_pass_reference "crane".toList "crate".toList (by decide)).2.2.1,
   by decide, by decide⟩

/-- C7: for a secret and a guess of equal length and every letter `x`, the
positions of the guess that hold `x` and are marked G or Y number at most the
occurrences of `x` in the secret and at most its occurrences in the guess. -/
theorem marks_le_min_occurrences (secret guess : Str) (x : Char)
    (h : secret.length = guess.length) :
    markedCount guess (feedback secret guess) x ≤ min (secret.count x) (guess.count x) := by
  apply Nat.le_min.mpr
  constructor
  · have hb := marked_below_bound secret guess x secret.length (Nat.le_refl _)
    have hg := greensOf_le_count secret guess x
    unfold markedCount
    rw [← h]
    unfold available greensOf at hb
    unfold greensOf at hg
    omega
  · rw [count_eq_countP_range guess x]
    unfold markedCount
    apply List.countP_mono_left
    intro i _ hi
    simp only [Bool.and_eq_true, decide_eq_true_eq] at hi
    simpa using hi.1

/-- C7 at secret "abbey", guess "babes", letter b: two marks, two occurrences. -/
theorem marks_le_min_occurrences_witness :
    "abbey".toList.length = "babes".toList.length ∧
    markedCount "babes".toList (feedback "abbey".toList "babes".toList) 'b'
      ≤ min ("abbey".toList.count 'b') ("babes".toList.count 'b') :=
  ⟨by decide, marks_le_min_occurrences "abbey".toList "babes".toList 'b' (by decide)⟩

/-- C8 as stated fails: for secret "abbey" and guess "babes" it is not the
case that one of the positions 0 and 2 is marked G or Y and the other B. -/
theorem abbey_babes_not_one_b_marked :
    ¬ (((at_ (feedback "abbey".toList "babes".toList) 0 = 'G'
          ∨ at_ (feedback "abbey".toList "babes".toList) 0 = 'Y')
        ∧ at_ (feedback "abbey".toList "babes".toList) 2 = 'B')
      ∨ (at_ (feedback "abbey".toList "babes".toList) 0 = 'B'
        ∧ (at_ (feedback "abbey".toList "babes".toList) 2 = 'G'
          ∨ at_ (feedback "abbey".toList "babes".toList) 2 = 'Y'))) := by
  decide

/-- C8, amended: the secret "abbey" holds the letter b twice, and for the
guess "babes" the pattern is "YYGGB": both b positions of the guess are marked,
position 0 Yellow and position 2 Green, neither Black. -/
theorem abbey_babes_both_b_marked :
    "abbey".toList.count 'b' = 2 ∧
    feedback "abbey".toList "babes".toList = "YYGGB".toList ∧
    at_ (feedback "abbey".toList "babes".toList) 0 = 'Y' ∧
    at_ (feedback "abbey".toList "babes".toList) 2 = 'G' ∧
    markedCount "babes".toList (feedback "abbey".toList "babes".toList) 'b' = 2 ∧
    generate_feedback "abbey".toList "babes".toList = some "YYGGB".toList := by
  decide

/-- C9: for every word `w`, `feedback w w` is `|w|` marks G. -/
theorem feedback_self_all_green (w : Str) :
    feedback w w = List.replicate w.length 'G' := by
  rw [feedback_eq_feedbackRef, feedbackRef, replicate_eq_map_range]
  apply map_range_congr
  intro i _
  simp [refMark]


/-! ## Game state machine: the claims -/

/-- The two messages of `makeGuess` differ, whatever the guess. -/
theorem invalidGuess_ne_invalidState (guess : Str) : invalidGuess guess ≠ invalidState := by
  intro h
  have h2 : (invalidGuess guess).what.getD 9 'x' = invalidState.what.getD 9 'x' := by rw [h]
  have h3 : (invalidGuess guess).what.getD 9 'x' = 'u' := rfl
  have h4 : invalidState.what.getD 9 'x' = 'a' := rfl
  rw [h3, h4] at h2
  exact absurd h2 (by decide)

/-- C2: in state Playing, for a guess that `isValidGuess` accepts, `makeGuess`
returns `feedback(secret, guess)`, appends the one entry (guess, pattern) at the
end of the history, adds one to the round counter, and sets the state to Won
when the guess is the secret, else to Lost when the new round counter has
reached T, else leaves it Playing; the secret, the configuration and the
dictionary stay as they were. -/
theorem makeGuess_accepted (v : Variant) (g : IWordGame) (guess : Str)
    (hs : g.state_ = GameState.PLAYING) (hv : isValidGuess v g guess = true) :
    (makeGuess v g guess).1 = Except.ok (feedback g.secret_ guess) ∧
    (makeGuess v g guess).2.history_
      = g.history_ ++ [HistoryEntry.mk guess (feedback g.secret_ guess)] ∧
    (makeGuess v g guess).2.current_round_ = g.current_round_ + 1 ∧
    (makeGuess v g guess).2.state_
      = (if guess = g.secret_ then GameState.WON
         else if g.current_round_ + 1 ≥ g.config_.T then GameState.LOST
         else GameState.PLAYING) ∧
    (makeGuess v g guess).2.secret_ = g.secret_ ∧
    (makeGuess v g guess).2.config_ = g.config_ ∧
    (makeGuess v g guess).2.dictionary_ = g.dictionary_ := by
  unfold makeGuess
  simp only [hs, hv, ne_eq, not_true_eq_false, if_false, Bool.not_true, Bool.false_eq_true]
  unfold updateGameState
  by_cases hw : guess = g.secret_
  · simp [hw]
  · by_cases hl : g.current_round_ + 1 ≥ g.config_.T
    · simp [hw, hl]
    · simp [hw, hl, hs]

/-- C2 on the sample game (built by the constructor and `start`): the wrong
guess "crane" with T = 1 is answered "BYYBY" and ends the game Lost. -/
theorem makeGuess_accepted_witness :
    (∃ g0, IWordGame.IWordGame sampleConfig = Except.ok g0 ∧
      start g0 "zebra".toList = sampleGame) ∧
    sampleGame.state_ = GameState.PLAYING ∧
    isValidGuess Variant.ClassicWordle sampleGame "crane".toList = true ∧
    (makeGuess Variant.ClassicWordle sampleGame "crane".toList).1
      = Except.ok (feedback sampleGame.secret_ "crane".toList) ∧
    feedback sampleGame.secret_ "crane".toList = "BYYBY".toList ∧
    (makeGuess Variant.ClassicWordle sampleGame "crane".toList).2.state_ = GameState.LOST :=
  ⟨⟨_, rfl, by decide⟩, by decide, by decide,
   (makeGuess_accepted Variant.ClassicWordle sampleGame "crane".toList
      (by decide) (by decide)).1,
   by decide, by decide⟩

/-- C5: in state Playing, for a guess that `isValidGuess` rejects, `makeGuess`
throws the invalid-guess exception (not the invalid-state one) and leaves the
whole object, so the history, the round counter, the state and the secret, as
it was. -/
theorem makeGuess_rejected (v : Variant) (g : IWordGame) (guess : Str)
    (hs : g.state_ = GameState.PLAYING) (hv : isValidGuess v g guess = false) :
    makeGuess v g guess = (Except.error (invalidGuess guess), g) ∧
    invalidGuess guess ≠ invalidState ∧
    (makeGuess v g guess).2.history_ = g.history_ ∧
    (makeGuess v g guess).2.current_round_ = g.current_round_ ∧
    (makeGuess v g guess).2.state_ = g.state_ ∧
    (makeGuess v g guess).2.secret_ = g.secret_ := by
  have h : makeGuess v g guess = (Except.error (invalidGuess guess), g) := by
    unfold makeGuess
    simp [hs, hv]
  refine ⟨h, invalidGuess_ne_invalidState guess, ?_, ?_, ?_, ?_⟩ <;> rw [h]

/-- C5 on the sample game: "hello" is not in the dictionary. -/
theorem makeGuess_rejected_witness :
    sampleGame.state_ = GameState.PLAYING ∧
    isValidGuess Variant.ClassicWordle sampleGame "hello".toList = false ∧
    makeGuess Variant.ClassicWordle sampleGame "hello".toList
      = (Except.error (invalidGuess "hello".toList), sampleGame) :=
  ⟨by decide, by decide,
   (makeGuess_rejected Variant.ClassicWordle sampleGame "hello".toList
      (by decide) (by decide)).1⟩

/-- C6: in a state other than Playing (NotStarted, Won, Lost), `makeGuess`
throws the invalid-state exception for every guess, valid or not, and leaves
the object as it was; so no sequence of `makeGuess` calls changes the state,
the history or the round counter of such a game. -/
theorem makeGuess_outside_play (v : Variant) (g : IWordGame) (guess : Str)
    (hs : g.state_ ≠ GameState.PLAYING) :
    makeGuess v g guess = (Except.error invalidState, g) ∧
    ∀ guesses : List Str, guesses.foldl (fun st w => (makeGuess v st w).2) g = g := by
  have h : ∀ w, makeGuess v g w = (Except.error invalidState, g) := by
    intro w
    unfold makeGuess
    simp [hs]
  refine ⟨h guess, ?_⟩
  intro guesses
  induction guesses with
  | nil => rfl
  | cons w rest ih =>
    rw [List.foldl_cons, h w]
    exact ih

/-- C6 on the sample game once it is Won: the secret itself is refused. -/
theorem makeGuess_outside_play_witness :
    (makeGuess Variant.ClassicWordle sampleGame "zebra".toList).2.state_ = GameState.WON ∧
    (makeGuess Variant.ClassicWordle sampleGame "zebra".toList).2.state_ ≠ GameState.PLAYING ∧
    makeGuess Variant.ClassicWordle
        (makeGuess Variant.ClassicWordle sampleGame "zebra".toList).2 "zebra".toList
      = (Except.error invalidState,
          (makeGuess Variant.ClassicWordle sampleGame "zebra".toList).2) :=
  ⟨by decide, by decide,
   (makeGuess_outside_play Variant.ClassicWordle
      (makeGuess Variant.ClassicWordle sampleGame "zebra".toList).2 "zebra".toList
      (by decide)).1⟩

/-- The history loop of hard mode accepts exactly the guesses that reproduce
every recorded pattern. -/
theorem historyLoop_iff (guess : Str) (hist : List HistoryEntry) :
    HardWordle.historyLoop guess hist = true ↔
      ∀ e ∈ hist, feedback guess e.guess = e.pattern := by
  induction hist with
  | nil => simp [HardWordle.historyLoop]
  | cons e rest ih =>
    unfold HardWordle.historyLoop
    by_cases he : feedback guess e.guess = e.pattern
    · simp [he, ih]
    · simp [he]

/-- C4: in every hard-mode game state, `isValidGuess(guess)` holds exactly
when the guess is a member of the dictionary (which is what the
dictionary-only mode accepts for the same dictionary) and
`feedback(guess, g) = p` for every history entry `(g, p)`; so a guess valid in
hard mode is valid in dictionary-only mode. -/
theorem hard_isValidGuess_iff (g : IWordGame) (guess : Str) :
    (isValidGuess Variant.HardWordle g guess = true ↔
      (guess ∈ g.dictionary_ ∧ ∀ e ∈ g.history_, feedback guess e.guess = e.pattern)) ∧
    (isValidGuess Variant.ClassicWordle g guess = true ↔ guess ∈ g.dictionary_) ∧
    (isValidGuess Variant.HardWordle g guess = true ↔
      (isValidGuess Variant.ClassicWordle g guess = true ∧
        ∀ e ∈ g.history_, feedback guess e.guess = e.pattern)) ∧
    (isValidGuess Variant.HardWordle g guess = true →
      isValidGuess Variant.ClassicWordle g guess = true) := by
  have hc : isValidGuess Variant.ClassicWordle g guess = true ↔ guess ∈ g.dictionary_ := by
    show setFind guess g.dictionary_ = true ↔ _
    exact setFind_iff_mem guess g.dictionary_
  have hh : isValidGuess Variant.HardWordle g guess = true ↔
      (guess ∈ g.dictionary_ ∧ ∀ e ∈ g.history_, feedback guess e.guess = e.pattern) := by
    show HardWordle.isValidGuess g guess = true ↔ _
    unfold HardWordle.isValidGuess HardWordle.isValidWord
    rw [← setFind_iff_mem, ← historyLoop_iff]
    by_cases hf : setFind guess g.dictionary_ = true
    · simp [hf]
    · simp [hf]
  refine ⟨hh, hc, ?_, ?_⟩
  · rw [hh, hc]
  · intro h
    exact hc.mpr (hh.mp h).1

/-- C4 on a hard-mode game whose history holds ("babes", "YYGGB"): the secret
"abbey" stays valid, "crane" is a dictionary word that hard mode refuses. -/
theorem hard_isValidGuess_iff_witness :
    isValidGuess Variant.HardWordle sampleHardGame "abbey".toList = true ∧
    isValidGuess Variant.HardWordle sampleHardGame "crane".toList = false ∧
    isValidGuess Variant.ClassicWordle sampleHardGame "crane".toList = true ∧
    ("abbey".toList ∈ sampleHardGame.dictionary_ ∧
      ∀ e ∈ sampleHardGame.history_, feedback "abbey".toList e.guess = e.pattern) :=
  ⟨by decide, by decide, by decide,
   (hard_isValidGuess_iff sampleHardGame "abbey".toList).1.mp (by decide)⟩

/-! ## Dictionary builder: the claim -/

/-- C10: for every configuration with L > 0, T > 0 and S > 0 the constructor
succeeds and the dictionary it builds is the set of the words of `dict_words`
of length L: a word is a member exactly when it is a supplied word of length
L, and no member is listed twice, so the dictionary has as many members as
there are distinct supplied words of length L. -/
theorem dictionary_is_length_filter (cfg : Config)
    (hL : 0 < cfg.L) (hT : 0 < cfg.T) (hS : 0 < cfg.S) :
    ∃ g, IWordGame.IWordGame cfg = Except.ok g ∧
      (∀ w, w ∈ g.dictionary_ ↔ (w ∈ cfg.dict_words ∧ (w.length : Int) = cfg.L)) ∧
      (∀ w, isValidWord Variant.ClassicWordle g w = true ↔
        (w ∈ cfg.dict_words ∧ (w.length : Int) = cfg.L)) ∧
      g.dictionary_.Nodup ∧
      g.dictionary_.length
        = (cfg.dict_words.filter (fun w => decide ((w.length : Int) = cfg.L))).toFinset.card := by
  have hcfg : ¬ (cfg.L ≤ 0 ∨ cfg.T ≤ 0) := by omega
  have hS0 : ¬ cfg.S = 0 := by omega
  unfold IWordGame.IWordGame
  rw [if_neg hcfg]
  refine ⟨_, rfl, ?_⟩
  unfold buildDictionary
  simp only [hS0, decide_False, Bool.false_eq_true, if_false]
  obtain ⟨_, _, _, i4, i5⟩ := buildLoop_spec cfg.dict_words
    { config_ := cfg, secret_ := [], history_ := [], state_ := GameState.NOT_STARTED,
      current_round_ := 0, is_universe_ := false, dictionary_ := [] }
  have hmem : ∀ w, w ∈ (cfg.dict_words.foldl buildDictionaryStep
      { config_ := cfg, secret_ := [], history_ := [], state_ := GameState.NOT_STARTED,
        current_round_ := 0, is_universe_ := false, dictionary_ := [] }).dictionary_ ↔
      (w ∈ cfg.dict_words ∧ (w.length : Int) = cfg.L) := by
    intro w
    rw [i4 w]
    simp
  have hnd := nodup_of_sorted _ (i5 (by simp [SetSorted]))
  refine ⟨hmem, ?_, hnd, ?_⟩
  · intro w
    show setFind w _ = true ↔ _
    rw [setFind_iff_mem]
    exact hmem w
  · rw [← List.toFinset_card_of_nodup hnd]
    congr 1
    ext w
    rw [List.mem_toFinset, List.mem_toFinset, hmem w, List.mem_filter]
    simp

/-- C10 on the sample configuration: of "zebra", "crane", "zebra", "ab" the
dictionary keeps "crane" and "zebra". -/
theorem dictionary_is_length_filter_witness :
    (0 < sampleConfig.L ∧ 0 < sampleConfig.T ∧ 0 < sampleConfig.S) ∧
    (∃ g, IWordGame.IWordGame sampleConfig = Except.ok g ∧
      g.dictionary_ = ["crane".toList, "zebra".toList]) ∧
    (∃ g, IWordGame.IWordGame sampleConfig = Except.ok g ∧ g.dictionary_.Nodup) :=
  ⟨by decide, ⟨_, rfl, by decide⟩,
   match dictionary_is_length_filter sampleConfig (by decide) (by decide) (by decide) with
   | ⟨g, h1, _, _, h4, _⟩ => ⟨g, h1, h4⟩⟩

/-! ## Candidate filter: the claim -/

/-- C3: when every candidate has the length of the guess, `update(guess,
pattern)` leaves exactly the candidates `c` with `feedback(c, guess) = pattern`,
where `feedback` is the game's feedback engine: the retained ones satisfy the
equality, the removed ones do not, no word is added, and the order and the
configuration are kept. -/
theorem update_keeps_consistent (s : MySolver) (guess pattern : Str)
    (hlen : ∀ c ∈ s.candidates_, c.length = guess.length) :
    (s.update guess pattern).candidates_
      = s.candidates_.filter (fun c => decide (feedback c guess = pattern)) ∧
    (∀ w, w ∈ (s.update guess pattern).candidates_ ↔
      (w ∈ s.candidates_ ∧ feedback w guess = pattern)) ∧
    (∀ w, w ∈ s.candidates_ → w ∉ (s.update guess pattern).candidates_ →
      feedback w guess ≠ pattern) ∧
    (s.update guess pattern).config_ = s.config_ := by
  have h1 : (s.update guess pattern).candidates_
      = s.candidates_.filter (fun c => decide (feedback c guess = pattern)) := by
    show updateLoop guess pattern s.candidates_ = _
    rw [updateLoop_eq_filter]
    apply List.filter_congr
    intro c hc
    rw [generatePattern_eq_feedback c guess (hlen c hc)]
  have h2 : ∀ w, w ∈ (s.update guess pattern).candidates_ ↔
      (w ∈ s.candidates_ ∧ feedback w guess = pattern) := by
    intro w
    rw [h1, List.mem_filter]
    simp
  refine ⟨h1, h2, ?_, rfl⟩
  intro w hw hnot hfb
  exact hnot ((h2 w).mpr ⟨hw, hfb⟩)

/-- C3 on the candidates "abbey", "babes", "crane" with the guess "babes" and
the pattern "YYGGB": only "abbey" stays. -/
theorem update_keeps_consistent_witness :
    (∀ c ∈ ["abbey".toList, "babes".toList, "crane".toList],
        c.length = "babes".toList.length) ∧
    ((MySolver.mk sampleConfig ["abbey".toList, "babes".toList, "crane".toList]).update
        "babes".toList "YYGGB".toList).candidates_
      = ["abbey".toList, "babes".toList, "crane".toList].filter
          (fun c => decide (feedback c "babes".toList = "YYGGB".toList)) ∧
    ((MySolver.mk sampleConfig ["abbey".toList, "babes".toList, "crane".toList]).update
        "babes".toList "YYGGB".toList).candidates_ = ["abbey".toList] :=
  ⟨by decide,
   (update_keeps_consistent
      (MySolver.mk sampleConfig ["abbey".toList, "babes".toList, "crane".toList])
      "babes".toList "YYGGB".toList (by decide)).1,
   by decide⟩

/-! ## Universe mode -/

/-- The inner letter loop of `generateAllWords`, once the nested calls are
known to insert what `generateAllWordsCalls` records. -/
theorem generateAllWords_letters (fuel pos : Nat)
    (ih : ∀ (g : IWordGame) (cur : Str) (p : Nat),
      generateAllWords fuel g cur p
        = ({ g with dictionary_ :=
                (List.foldl (fun d w => setInsert w d) g.dictionary_
                  (generateAllWordsCalls g.config_.L fuel cur p).1) },
           (generateAllWordsCalls g.config_.L fuel cur p).2))
    (cs : List Char) (g : IWordGame) (cur : Str) (acc : List Str) (d0 : StrSet)
    (hd : g.dictionary_ = acc.foldl (fun d w => setInsert w d) d0) :
    cs.foldl (fun st c => generateAllWords fuel st.1 (st.2.set pos c) (pos + 1)) (g, cur)
      = ({ g with dictionary_ :=
              (List.foldl (fun d w => setInsert w d) d0 (cs.foldl
                (fun st c =>
                  ((st.1 ++ (generateAllWordsCalls g.config_.L fuel (st.2.set pos c) (pos + 1)).1),
                   (generateAllWordsCalls g.config_.L fuel (st.2.set pos c) (pos + 1)).2))
                (acc, cur)).1) },
         (cs.foldl
            (fun st c =>
              ((st.1 ++ (generateAllWordsCalls g.config_.L fuel (st.2.set pos c) (pos + 1)).1),
               (generateAllWordsCalls g.config_.L fuel (st.2.set pos c) (pos + 1)).2))
            (acc, cur)).2) := by
  induction cs generalizing g cur acc with
  | nil =>
    simp only [List.foldl_nil]
    rw [← hd]
  | cons c rest ihc =>
    simp only [List.foldl_cons]
    rw [ih g (cur.set pos c) (pos + 1)]
    have h2 := ihc
      { g with dictionary_ :=
            (List.foldl (fun d w => setInsert w d) g.dictionary_
              (generateAllWordsCalls g.config_.L fuel (cur.set pos c) (pos + 1)).1) }
      (generateAllWordsCalls g.config_.L fuel (cur.set pos c) (pos + 1)).2
      (acc ++ (generateAllWordsCalls g.config_.L fuel (cur.set pos c) (pos + 1)).1)
      (by rw [List.foldl_append, hd])
    exact h2

/-- What `generateAllWords` does to the object: it inserts the recorded words,
in order, and touches nothing else. -/
theorem generateAllWords_eq (fuel : Nat) (g : IWordGame) (cur : Str) (pos : Nat) :
    generateAllWords fuel g cur pos
      = ({ g with dictionary_ :=
              (List.foldl (fun d w => setInsert w d) g.dictionary_
                (generateAllWordsCalls g.config_.L fuel cur pos).1) },
         (generateAllWordsCalls g.config_.L fuel cur pos).2) := by
  induction fuel generalizing g cur pos with
  | zero => rfl
  | succ fuel ih =>
    rw [generateAllWords, generateAllWordsCalls]
    by_cases hp : (pos : Int) = g.config_.L
    · rw [if_pos hp, if_pos hp]
      rfl
    · rw [if_neg hp, if_neg hp]
      exact generateAllWords_letters fuel pos ih alphabet g cur [] g.dictionary_ rfl

/-- Writing position `pos` leaves the first `pos` characters. -/
theorem take_set_same (cur : Str) (pos : Nat) (c : Char) :
    (cur.set pos c).take pos = cur.take pos := by
  apply List.ext_getElem?
  intro j
  rw [List.getElem?_take, List.getElem?_take, List.getElem?_set]
  by_cases hj : j < pos
  · have : ¬ pos = j := by omega
    simp [hj, this]
  · simp [hj]

/-- Writing position `pos` fixes the first `pos + 1` characters. -/
theorem take_set_succ (cur : Str) (pos : Nat) (c : Char) (h : pos < cur.length) :
    (cur.set pos c).take (pos + 1) = cur.take pos ++ [c] := by
  rw [List.take_succ, take_set_same, List.getElem?_set]
  simp [h]

/-- Strings that agree on `pos + 1` characters agree on `pos`. -/
theorem take_of_take_succ (a b : Str) (pos : Nat) (h : a.take (pos + 1) = b.take (pos + 1)) :
    a.take pos = b.take pos := by
  have h2 := congrArg (List.take pos) h
  simpa [List.take_take] using h2

/-- The letter loop of the recording recursion, once the nested calls are
known to record the completions of their prefix. -/
theorem calls_letters (L fuel pos n : Nat) (hpos : pos < L)
    (ih : ∀ (cur : Str), cur.length = L →
      (generateAllWordsCalls (L : Int) fuel cur (pos + 1)).1
          = (lowercaseWords n).map (fun s => cur.take (pos + 1) ++ s) ∧
      (generateAllWordsCalls (L : Int) fuel cur (pos + 1)).2.length = L ∧
      (generateAllWordsCalls (L : Int) fuel cur (pos + 1)).2.take (pos + 1)
          = cur.take (pos + 1))
    (cs : List Char) (acc : List Str) (cur : Str) (hcur : cur.length = L) :
    (cs.foldl
        (fun st c =>
          ((st.1 ++ (generateAllWordsCalls (L : Int) fuel (st.2.set pos c) (pos + 1)).1),
           (generateAllWordsCalls (L : Int) fuel (st.2.set pos c) (pos + 1)).2))
        (acc, cur)).1
      = acc ++ cs.flatMap
          (fun c => (lowercaseWords n).map (fun s => cur.take pos ++ c :: s)) ∧
    (cs.foldl
        (fun st c =>
          ((st.1 ++ (generateAllWordsCalls (L : Int) fuel (st.2.set pos c) (pos + 1)).1),
           (generateAllWordsCalls (L : Int) fuel (st.2.set pos c) (pos + 1)).2))
        (acc, cur)).2.length = L ∧
    (cs.foldl
        (fun st c =>
          ((st.1 ++ (generateAllWordsCalls (L : Int) fuel (st.2.set pos c) (pos + 1)).1),
           (generateAllWordsCalls (L : Int) fuel (st.2.set pos c) (pos + 1)).2))
        (acc, cur)).2.take pos = cur.take pos := by
  induction cs generalizing acc cur with
  | nil => simp [hcur]
  | cons c rest ihc =>
    simp only [List.foldl_cons]
    have hset : (cur.set pos c).length = L := by rw [List.length_set]; exact hcur
    obtain ⟨h1, h2, h3⟩ := ih (cur.set pos c) hset
    have htk : (cur.set pos c).take (pos + 1) = cur.take pos ++ [c] :=
      take_set_succ cur pos c (by omega)
    have h4 : (generateAllWordsCalls (L : Int) fuel (cur.set pos c) (pos + 1)).2.take pos
        = cur.take pos := by
      rw [take_of_take_succ _ _ pos h3, take_set_same]
    obtain ⟨r1, r2, r3⟩ := ihc (acc ++ (generateAllWordsCalls (L : Int) fuel (cur.set pos c) (pos + 1)).1)
      (generateAllWordsCalls (L : Int) fuel (cur.set pos c) (pos + 1)).2 h2
    refine ⟨?_, r2, ?_⟩
    · rw [r1, h1, htk, h4, List.flatMap_cons, List.append_assoc]
      simp
    · rw [r3, h4]

/-- With enough fuel a call at position `pos` records the completions of the
first `pos` characters of `current` by lowercase letters, in lexicographic
order, and leaves those characters in place. -/
theorem calls_spec (L fuel : Nat) (pos : Nat) (cur : Str)
    (hpos : pos ≤ L) (hfuel : L - pos < fuel) (hcur : cur.length = L) :
    (generateAllWordsCalls (L : Int) fuel cur pos).1
        = (lowercaseWords (L - pos)).map (fun s => cur.take pos ++ s) ∧
    (generateAllWordsCalls (L : Int) fuel cur pos).2.length = L ∧
    (generateAllWordsCalls (L : Int) fuel cur pos).2.take pos = cur.take pos := by
  induction fuel generalizing pos cur with
  | zero => omega
  | succ fuel ih =>
    rw [generateAllWordsCalls]
    by_cases hp : (pos : Int) = (L : Int)
    · rw [if_pos hp]
      have hpl : pos = L := by omega
      subst hpl
      refine ⟨?_, hcur, rfl⟩
      simp [lowercaseWords, ← hcur]
    · rw [if_neg hp]
      have hlt : pos < L := by omega
      have hn : L - pos = (L - (pos + 1)) + 1 := by omega
      obtain ⟨r1, r2, r3⟩ := calls_letters L fuel pos (L - (pos + 1)) hlt
        (fun c hc => ih (pos + 1) c (by omega) (by omega) hc) alphabet [] cur hcur
      refine ⟨?_, r2, r3⟩
      rw [r1, hn, lowercaseWords]
      simp only [List.map_flatMap, List.map_map, List.nil_append]
      rfl

/-- The string order is asymmetric. -/
theorem strLt_asymm (a b : Str) (h : strLt a b = true) : strLt b a = false := by
  cases hba : strLt b a with
  | false => rfl
  | true =>
    have := strLt_trans a b a h hba
    rw [strLt_irrefl] at this
    exact absurd this (by decide)

/-- A word above every member goes to the end of the set. -/
theorem setInsert_last (w : Str) (d : StrSet) (h : ∀ x ∈ d, strLt x w = true) :
    setInsert w d = d ++ [w] := by
  induction d with
  | nil => rfl
  | cons x xs ih =>
    have hx : strLt x w = true := h x (List.mem_cons_self x xs)
    have hwx : strLt w x = false := strLt_asymm x w hx
    rw [setInsert]
    simp only [hwx, hx, Bool.false_eq_true, if_false, if_true, List.cons_append]
    rw [ih (fun y hy => h y (List.mem_cons_of_mem x hy))]

/-- Inserting the words of a strictly increasing sequence, each above the
present members, appends them one by one. -/
theorem foldl_setInsert_sorted (ws : List Str) (d : StrSet) (h : SetSorted (d ++ ws)) :
    ws.foldl (fun acc w => setInsert w acc) d = d ++ ws := by
  induction ws generalizing d with
  | nil => simp
  | cons w rest ih =>
    rw [List.foldl_cons]
    unfold SetSorted at h
    have h1 : ∀ x ∈ d, strLt x w = true := by
      intro x hx
      exact (List.pairwise_append.mp h).2.2 x hx w (List.mem_cons_self w rest)
    rw [setInsert_last w d h1, ih (d ++ [w])]
    · simp
    · unfold SetSorted
      simpa using h

/-- The letters of the loop are the characters with codes 97 to 122. -/
theorem mem_alphabet_iff (c : Char) : c ∈ alphabet ↔ (97 ≤ c.toNat ∧ c.toNat ≤ 122) := by
  constructor
  · revert c
    decide
  · intro h
    unfold alphabet
    rw [List.mem_map]
    refine ⟨c.toNat - 97, List.mem_range.mpr (by omega), ?_⟩
    have : 97 + (c.toNat - 97) = c.toNat := by omega
    rw [this, Char.ofNat_toNat]

/-- The letters of the loop come in increasing order. -/
theorem alphabet_increasing : alphabet.Pairwise (fun a b => a.toNat < b.toNat) := by
  decide

/-- The lowercase test of the unrestricted policy, letter by letter. -/
theorem allLowercase_iff (w : Str) : allLowercase w = true ↔ ∀ c ∈ w, c ∈ alphabet := by
  induction w with
  | nil => simp [allLowercase]
  | cons c cs ih =>
    rw [allLowercase]
    have hlt : (c < 'a') ↔ c.toNat < 97 := Iff.rfl
    have hgt : (c > 'z') ↔ 122 < c.toNat := Iff.rfl
    by_cases hc : c < 'a' ∨ c > 'z'
    · rw [if_pos hc]
      constructor
      · intro h; exact absurd h (by decide)
      · intro h
        have := (mem_alphabet_iff c).mp (h c (List.mem_cons_self c cs))
        rw [hlt, hgt] at hc
        omega
    · rw [if_neg hc, ih]
      rw [hlt, hgt] at hc
      constructor
      · intro h x hx
        rcases List.mem_cons.mp hx with e | e
        · rw [e]; exact (mem_alphabet_iff c).mpr (by omega)
        · exact h x e
      · intro h x hx
        exact h x (List.mem_cons_of_mem c hx)

/-- The enumeration holds the strings of `n` lowercase letters. -/
theorem mem_lowercaseWords (n : Nat) (w : Str) :
    w ∈ lowercaseWords n ↔ (w.length = n ∧ ∀ c ∈ w, c ∈ alphabet) := by
  induction n generalizing w with
  | zero =>
    simp only [lowercaseWords, List.mem_singleton]
    constructor
    · intro h; subst h; simp
    · intro h; exact List.length_eq_zero.mp h.1
  | succ n ih =>
    simp only [lowercaseWords, List.mem_flatMap, List.mem_map]
    constructor
    · rintro ⟨c, hc, s, hs, rfl⟩
      obtain ⟨h1, h2⟩ := (ih s).mp hs
      refine ⟨by simp [h1], ?_⟩
      intro x hx
      rcases List.mem_cons.mp hx with e | e
      · rw [e]; exact hc
      · exact h2 x e
    · rintro ⟨h1, h2⟩
      cases w with
      | nil => simp at h1
      | cons c s =>
        refine ⟨c, h2 c (List.mem_cons_self c s), s, ?_, rfl⟩
        apply (ih s).mpr
        refine ⟨by simpa using h1, ?_⟩
        intro x hx
        exact h2 x (List.mem_cons_of_mem c hx)

/-- The enumeration has `26 ^ n` entries. -/
theorem length_lowercaseWords (n : Nat) : (lowercaseWords n).length = 26 ^ n := by
  induction n with
  | zero => rfl
  | succ n ih =>
    have hconst : ∀ (cs : List Char),
        (cs.flatMap (fun c => (lowercaseWords n).map (fun s => c :: s))).length
          = cs.length * 26 ^ n := by
      intro cs
      induction cs with
      | nil => simp
      | cons c rest ihc =>
        rw [List.flatMap_cons, List.length_append, ihc, List.length_map, ih, List.length_cons]
        ring
    rw [lowercaseWords, hconst alphabet]
    have : alphabet.length = 26 := by decide
    rw [this]
    ring

/-- The enumeration is strictly increasing. -/
theorem lowercaseWords_sorted (n : Nat) : SetSorted (lowercaseWords n) := by
  induction n with
  | zero => simp [SetSorted, lowercaseWords]
  | succ n ih =>
    unfold SetSorted at ih ⊢
    rw [lowercaseWords, List.pairwise_flatMap]
    constructor
    · intro c _
      rw [List.pairwise_map]
      apply List.Pairwise.imp _ ih
      intro a b hab
      simp [strLt, hab]
    · apply List.Pairwise.imp _ alphabet_increasing
      intro a b hab x hx y hy
      obtain ⟨s, _, rfl⟩ := List.mem_map.mp hx
      obtain ⟨t, _, rfl⟩ := List.mem_map.mp hy
      simp [strLt, hab]

/-- The builder changes the dictionary and the universe flag only. -/
theorem buildDictionary_fields (g : IWordGame) :
    (buildDictionary g).config_ = g.config_ ∧
    (buildDictionary g).state_ = g.state_ ∧
    (buildDictionary g).current_round_ = g.current_round_ := by
  unfold buildDictionary
  by_cases hS : g.config_.S = 0
  · simp only [hS, decide_True, if_true]
    rw [generateAllWords_eq]
    exact ⟨rfl, rfl, rfl⟩
  · simp only [hS, decide_False, Bool.false_eq_true, if_false]
    obtain ⟨i1, i2, i3, _, _⟩ := buildLoop_spec g.config_.dict_words
      { g with dictionary_ := [], is_universe_ := false }
    exact ⟨i1, i2, i3⟩

/-- In universe mode the recursion is called with enough fuel: it inserts the
lowercase words of length `L` in lexicographic order, and the dictionary lists
them in that order. -/
theorem buildDictionary_universe (g : IWordGame) (hL : 0 < g.config_.L)
    (hS : g.config_.S = 0) :
    (generateAllWordsCalls g.config_.L (g.config_.L.toNat + 1)
        (List.replicate g.config_.L.toNat 'a') 0).1 = lowercaseWords g.config_.L.toNat ∧
    (buildDictionary g).dictionary_ = lowercaseWords g.config_.L.toNat := by
  have hLn : ((g.config_.L.toNat : Nat) : Int) = g.config_.L := Int.toNat_of_nonneg (by omega)
  have hcalls : (generateAllWordsCalls g.config_.L (g.config_.L.toNat + 1)
      (List.replicate g.config_.L.toNat 'a') 0).1 = lowercaseWords g.config_.L.toNat := by
    have h := (calls_spec g.config_.L.toNat (g.config_.L.toNat + 1) 0
      (List.replicate g.config_.L.toNat 'a') (Nat.zero_le _) (by omega) (by simp)).1
    rw [hLn] at h
    rw [h]
    simp
  refine ⟨hcalls, ?_⟩
  unfold buildDictionary
  simp only [hS, decide_True, if_true]
  rw [generateAllWords_eq]
  show List.foldl (fun d w => setInsert w d) []
      (generateAllWordsCalls g.config_.L (g.config_.L.toNat + 1)
        (List.replicate g.config_.L.toNat 'a') 0).1 = _
  rw [hcalls, foldl_setInsert_sorted _ [] (by simpa using lowercaseWords_sorted _)]
  simp

/-- C11: for every configuration with L > 0, T > 0 and S = 0, whatever the
word list holds, the constructor succeeds and a string is in the dictionary
exactly when it has length L and all its characters are in a..z; the
dictionary has 26^L members, none twice; `generateAllWords` hands them to
`insert` in strictly increasing lexicographic order, which is the order of the
dictionary; and the dictionary-only `isValidWord` agrees with the unrestricted
one on every string. -/
theorem universe_dictionary (cfg : Config)
    (hL : 0 < cfg.L) (hT : 0 < cfg.T) (hS : cfg.S = 0) :
    ∃ g, IWordGame.IWordGame cfg = Except.ok g ∧
      (∀ w, w ∈ g.dictionary_ ↔ ((w.length : Int) = cfg.L ∧ ∀ c ∈ w, 'a' ≤ c ∧ c ≤ 'z')) ∧
      g.dictionary_.length = 26 ^ cfg.L.toNat ∧
      g.dictionary_.Nodup ∧
      (generateAllWordsCalls cfg.L (cfg.L.toNat + 1)
          (List.replicate cfg.L.toNat 'a') 0).1 = g.dictionary_ ∧
      SetSorted (generateAllWordsCalls cfg.L (cfg.L.toNat + 1)
          (List.replicate cfg.L.toNat 'a') 0).1 ∧
      ∀ w, isValidWord Variant.ClassicWordle g w = isValidWord Variant.TrivialWordle g w := by
  have hcfg : ¬ (cfg.L ≤ 0 ∨ cfg.T ≤ 0) := by omega
  unfold IWordGame.IWordGame
  rw [if_neg hcfg]
  refine ⟨_, rfl, ?_⟩
  obtain ⟨hcalls, hdict⟩ := buildDictionary_universe
    { config_ := cfg, secret_ := [], history_ := [], state_ := GameState.NOT_STARTED,
      current_round_ := 0, is_universe_ := false, dictionary_ := [] } hL hS
  have hconf := (buildDictionary_fields
    { config_ := cfg, secret_ := [], history_ := [], state_ := GameState.NOT_STARTED,
      current_round_ := 0, is_universe_ := false, dictionary_ := [] }).1
  have hLn : ((cfg.L.toNat : Nat) : Int) = cfg.L := Int.toNat_of_nonneg (by omega)
  have hmem : ∀ w : Str, w ∈ lowercaseWords cfg.L.toNat ↔
      ((w.length : Int) = cfg.L ∧ ∀ c ∈ w, 'a' ≤ c ∧ c ≤ 'z') := by
    intro w
    rw [mem_lowercaseWords]
    have hle : ∀ c : Char, ('a' ≤ c ∧ c ≤ 'z') ↔ c ∈ alphabet := by
      intro c
      rw [mem_alphabet_iff]
      exact Iff.rfl
    constructor
    · rintro ⟨h1, h2⟩
      exact ⟨by omega, fun c hc => (hle c).mpr (h2 c hc)⟩
    · rintro ⟨h1, h2⟩
      exact ⟨by omega, fun c hc => (hle c).mp (h2 c hc)⟩
  rw [hdict, hcalls]
  refine ⟨hmem, length_lowercaseWords _, nodup_of_sorted _ (lowercaseWords_sorted _), rfl,
    lowercaseWords_sorted _, ?_⟩
  intro w
  show setFind w (buildDictionary _).dictionary_ = TrivialWordle.isValidWord (buildDictionary _) w
  unfold TrivialWordle.isValidWord
  rw [hconf, hdict]
  apply Bool.eq_iff_iff.mpr
  rw [setFind_iff_mem, mem_lowercaseWords]
  show _ ↔ (if ¬ (w.length : Int) = cfg.L then false else allLowercase w) = true
  by_cases hw : (w.length : Int) = cfg.L
  · simp only [hw, not_true_eq_false, if_false, allLowercase_iff]
    constructor
    · intro h; exact h.2
    · intro h; exact ⟨by omega, h⟩
  · simp only [hw, not_false_eq_true, if_true]
    constructor
    · intro h; omega
    · intro h; exact absurd h (by decide)

/-- C11 on one-letter words: the dictionary is the 26 letters, whatever the
word list. -/
theorem universe_dictionary_witness :
    (0 < universeConfig.L ∧ 0 < universeConfig.T ∧ universeConfig.S = 0) ∧
    (∃ g, IWordGame.IWordGame universeConfig = Except.ok g ∧
      g.dictionary_ = alphabet.map (fun c => [c])) ∧
    (∃ g, IWordGame.IWordGame universeConfig = Except.ok g ∧
      g.dictionary_.length = 26 ^ universeConfig.L.toNat) :=
  ⟨by decide, ⟨_, rfl, by decide⟩,
   match universe_dictionary universeConfig (by decide) (by decide) (by decide) with
   | ⟨g, h1, _, h3, _⟩ => ⟨g, h1, h3⟩⟩

/-! ## Construction -/

/-- C12: constructing a game throws the invalid-configuration exception
exactly when L <= 0 or T <= 0, and then no game object results; when L > 0 and
T > 0 the constructor returns a game holding the configuration, in state
NotStarted with round counter 0. -/
theorem constructor_fails_iff (cfg : Config) :
    (IWordGame.IWordGame cfg = Except.error invalidConfig ↔ (cfg.L ≤ 0 ∨ cfg.T ≤ 0)) ∧
    ((∃ e, IWordGame.IWordGame cfg = Except.error e) ↔ (cfg.L ≤ 0 ∨ cfg.T ≤ 0)) ∧
    ((cfg.L ≤ 0 ∨ cfg.T ≤ 0) → ¬ ∃ g, IWordGame.IWordGame cfg = Except.ok g) ∧
    ((0 < cfg.L ∧ 0 < cfg.T) →
      ∃ g, IWordGame.IWordGame cfg = Except.ok g ∧ g.config_ = cfg ∧
        g.state_ = GameState.NOT_STARTED ∧ g.current_round_ = 0) := by
  by_cases h : cfg.L ≤ 0 ∨ cfg.T ≤ 0
  · have hc : IWordGame.IWordGame cfg = Except.error invalidConfig := by
      unfold IWordGame.IWordGame
      rw [if_pos h]
      rfl
    refine ⟨⟨fun _ => h, fun _ => hc⟩, ⟨fun _ => h, fun _ => ⟨_, hc⟩⟩, ?_, ?_⟩
    · intro _ hg
      obtain ⟨g, hg⟩ := hg
      rw [hc] at hg
      exact absurd hg (by simp)
    · intro hpos
      omega
  · have hc : IWordGame.IWordGame cfg = Except.ok (buildDictionary
        { config_ := cfg, secret_ := [], history_ := [], state_ := GameState.NOT_STARTED,
          current_round_ := 0, is_universe_ := false, dictionary_ := [] }) := by
      unfold IWordGame.IWordGame
      rw [if_neg h]
    refine ⟨⟨?_, fun h2 => absurd h2 h⟩, ⟨?_, fun h2 => absurd h2 h⟩, fun h2 => absurd h2 h, ?_⟩
    · intro he
      rw [hc] at he
      exact absurd he (by simp)
    · rintro ⟨e, he⟩
      rw [hc] at he
      exact absurd he (by simp)
    · intro _
      obtain ⟨f1, f2, f3⟩ := buildDictionary_fields
        { config_ := cfg, secret_ := [], history_ := [], state_ := GameState.NOT_STARTED,
          current_round_ := 0, is_universe_ := false, dictionary_ := [] }
      exact ⟨_, hc, f1, f2, f3⟩

/-- C12 on three configurations: L = 0 fails, T = 0 fails, the sample
configuration gives a game that has not started. -/
theorem constructor_fails_iff_witness :
    IWordGame.IWordGame { sampleConfig with L := 0 } = Except.error invalidConfig ∧
    IWordGame.IWordGame { sampleConfig with T := 0 } = Except.error invalidConfig ∧
    (∃ g, IWordGame.IWordGame sampleConfig = Except.ok g ∧ g.config_ = sampleConfig ∧
      g.state_ = GameState.NOT_STARTED ∧ g.current_round_ = 0) :=
  ⟨(constructor_fails_iff { sampleConfig with L := 0 }).1.mpr (by decide),
   rfl,
   (constructor_fails_iff sampleConfig).2.2.2 (by decide)⟩

/-! ## Solver: the candidate set -/

/-- Inserting a list of words adds them and nothing else. -/
theorem mem_foldl_setInsert (ws : List Str) (d : StrSet) (x : Str) :
    x ∈ ws.foldl (fun acc w => setInsert w acc) d ↔ (x ∈ d ∨ x ∈ ws) := by
  induction ws generalizing d with
  | nil => simp
  | cons w rest ih =>
    rw [List.foldl_cons, ih, mem_setInsert, List.mem_cons]
    tauto

/-- Inserting a list of words keeps the set strictly increasing. -/
theorem foldl_setInsert_keeps_sorted (ws : List Str) (d : StrSet) (h : SetSorted d) :
    SetSorted (ws.foldl (fun acc w => setInsert w acc) d) := by
  induction ws generalizing d with
  | nil => simpa using h
  | cons w rest ih =>
    rw [List.foldl_cons]
    exact ih _ (setInsert_sorted w d h)

/-- The insertion loop of `reset` works on the candidate set alone. -/
theorem resetLoop_spec (ws : List Str) (acc : MySolver) :
    (ws.foldl (fun a word => { a with candidates_ := setInsert word a.candidates_ }) acc).config_
      = acc.config_ ∧
    (ws.foldl (fun a word => { a with candidates_ := setInsert word a.candidates_ }) acc).candidates_
      = ws.foldl (fun d w => setInsert w d) acc.candidates_ := by
  induction ws generalizing acc with
  | nil => exact ⟨rfl, rfl⟩
  | cons w rest ih =>
    rw [List.foldl_cons, List.foldl_cons]
    exact ih { acc with candidates_ := setInsert w acc.candidates_ }

/-- After `reset` the candidates are the words of the word list, as a set. -/
theorem reset_spec (s : MySolver) :
    s.reset.config_ = s.config_ ∧
    s.reset.candidates_ = s.config_.dict_words.foldl (fun d w => setInsert w d) [] ∧
    SetSorted s.reset.candidates_ ∧
    ∀ w, w ∈ s.reset.candidates_ ↔ w ∈ s.config_.dict_words := by
  obtain ⟨h1, h2⟩ := resetLoop_spec s.config_.dict_words { s with candidates_ := [] }
  have h2b : s.reset.candidates_ = s.config_.dict_words.foldl (fun d w => setInsert w d) [] := h2
  refine ⟨h1, h2b, ?_, ?_⟩
  · rw [h2b]
    exact foldl_setInsert_keeps_sorted _ [] (by simp [SetSorted])
  · intro w
    rw [h2b, mem_foldl_setInsert]
    simp

/-- The erase loop keeps the set strictly increasing. -/
theorem update_sorted (s : MySolver) (guess pattern : Str) (h : SetSorted s.candidates_) :
    SetSorted (s.update guess pattern).candidates_ := by
  show SetSorted (updateLoop guess pattern s.candidates_)
  rw [updateLoop_eq_filter]
  exact List.Pairwise.sublist (List.filter_sublist _) h

/-- C13: `chooseBestGuess` returns the empty string when the candidate set is
empty, and otherwise a member of the set that is below every other member in
the string order, the lexicographically smallest candidate. The candidate set
is a `std::set`, listed in strictly increasing order (`SetSorted`, which
`reset` establishes and `update` keeps); the routine only reads it. -/
theorem chooseBestGuess_smallest (s : MySolver) (hs : SetSorted s.candidates_) :
    (s.candidates_ = [] → s.chooseBestGuess = []) ∧
    (s.candidates_ ≠ [] →
      s.chooseBestGuess ∈ s.candidates_ ∧
      ∀ w ∈ s.candidates_, w ≠ s.chooseBestGuess → strLt s.chooseBestGuess w = true) := by
  unfold MySolver.chooseBestGuess
  cases hc : s.candidates_ with
  | nil => simp
  | cons first rest =>
    rw [hc] at hs
    unfold SetSorted at hs
    rw [List.pairwise_cons] at hs
    refine ⟨fun h => absurd h (by simp), fun _ => ⟨List.mem_cons_self first rest, ?_⟩⟩
    intro w hw hne
    rcases List.mem_cons.mp hw with e | e
    · exact absurd e hne
    · exact hs.1 w e

/-- C13 after `reset` on the sample configuration ("zebra", "crane", "zebra",
"ab"): the smallest candidate is "ab"; on an empty set the result is empty. -/
theorem chooseBestGuess_smallest_witness :
    SetSorted (MySolver.mk sampleConfig []).reset.candidates_ ∧
    (MySolver.mk sampleConfig []).reset.chooseBestGuess = "ab".toList ∧
    (MySolver.mk sampleConfig []).chooseBestGuess = [] ∧
    ((MySolver.mk sampleConfig []).reset.candidates_ ≠ [] →
      (MySolver.mk sampleConfig []).reset.chooseBestGuess
          ∈ (MySolver.mk sampleConfig []).reset.candidates_ ∧
      ∀ w ∈ (MySolver.mk sampleConfig []).reset.candidates_,
        w ≠ (MySolver.mk sampleConfig []).reset.chooseBestGuess →
        strLt (MySolver.mk sampleConfig []).reset.chooseBestGuess w = true) :=
  ⟨(reset_spec (MySolver.mk sampleConfig [])).2.2.1, by decide, by decide,
   (chooseBestGuess_smallest (MySolver.mk sampleConfig []).reset
      (reset_spec (MySolver.mk sampleConfig [])).2.2.1).2⟩

/-- C14: applying `update(guess, pattern)` twice leaves the same solver, so
the same candidate set, as applying it once. -/
theorem update_idempotent (s : MySolver) (guess pattern : Str) :
    (s.update guess pattern).update guess pattern = s.update guess pattern := by
  unfold MySolver.update
  simp only [updateLoop_eq_filter, List.filter_filter, Bool.and_self]

/-! ## Remaining words and the candidate filter -/

/-- The inner loop of `getRemainingWords` accepts the candidates that
reproduce every recorded pattern. -/
theorem possibleSecret_iff (candidate : Str) (hist : List HistoryEntry) :
    possibleSecret candidate hist = true ↔
      ∀ e ∈ hist, feedback candidate e.guess = e.pattern := by
  induction hist with
  | nil => simp [possibleSecret]
  | cons e rest ih =>
    unfold possibleSecret
    by_cases he : feedback candidate e.guess = e.pattern
    · simp [he, ih]
    · simp [he]

/-- A counting loop counts the elements that pass its test. -/
theorem foldl_count (p : Str → Bool) (l : List Str) (n : Int) :
    l.foldl (fun count c => if p c then count + 1 else count) n
      = n + ((l.filter p).length : Int) := by
  induction l generalizing n with
  | nil => simp
  | cons c rest ih =>
    rw [List.foldl_cons, ih]
    by_cases hc : p c = true
    · simp [hc, List.filter_cons]
      omega
    · simp [hc, List.filter_cons]

/-- The count returned by `getRemainingWords`. -/
theorem getRemainingWords_eq (g : IWordGame) :
    getRemainingWords g
      = ((g.dictionary_.filter (fun w => possibleSecret w g.history_)).length : Int) := by
  unfold getRemainingWords
  rw [foldl_count]
  simp

/-- A sequence of updates keeps the candidates whose pattern, by the solver
own routine, is the observed one in every round. -/
theorem updates_eq_filter (hist : List HistoryEntry) (s : MySolver) :
    (hist.foldl (fun st e => st.update e.guess e.pattern) s).candidates_
      = s.candidates_.filter
          (fun c => hist.all (fun e => decide (generatePattern c e.guess = e.pattern))) := by
  induction hist generalizing s with
  | nil => simp
  | cons e rest ih =>
    rw [List.foldl_cons, ih]
    show List.filter _ (updateLoop e.guess e.pattern s.candidates_) = _
    rw [updateLoop_eq_filter, List.filter_filter]
    apply List.filter_congr
    intro c _
    simp only [List.all_cons]
    exact Bool.and_comm _ _

/-- C15: when the words of the dictionary and the guesses of the history have
one length, and the solver starts from the dictionary and receives the rounds
of the history in order, `getRemainingWords()` is the size of the solver
candidate set; both are the number of dictionary words `w` with
`feedback(w, g) = p` for every round `(g, p)`, and with no round they are the
size of the dictionary. -/
theorem remaining_words_eq_candidates (g : IWordGame) (s : MySolver) (L : Nat)
    (hD : ∀ w ∈ g.dictionary_, w.length = L)
    (hH : ∀ e ∈ g.history_, e.guess.length = L)
    (hs : s.candidates_ = g.dictionary_) :
    getRemainingWords g
      = ((g.history_.foldl (fun st e => st.update e.guess e.pattern) s).candidates_.length : Int) ∧
    getRemainingWords g
      = ((g.dictionary_.filter
          (fun w => g.history_.all (fun e => decide (feedback w e.guess = e.pattern)))).length
            : Int) ∧
    (g.history_ = [] → getRemainingWords g = (g.dictionary_.length : Int)) := by
  have h2 : getRemainingWords g
      = ((g.dictionary_.filter
          (fun w => g.history_.all (fun e => decide (feedback w e.guess = e.pattern)))).length
            : Int) := by
    rw [getRemainingWords_eq]
    congr 2
    apply List.filter_congr
    intro w _
    apply Bool.eq_iff_iff.mpr
    rw [possibleSecret_iff, List.all_eq_true]
    simp
  refine ⟨?_, h2, ?_⟩
  · rw [h2, updates_eq_filter, hs]
    congr 2
    apply List.filter_congr
    intro w hw
    apply Bool.eq_iff_iff.mpr
    rw [List.all_eq_true, List.all_eq_true]
    constructor
    · intro h e he
      have := h e he
      rw [generatePattern_eq_feedback w e.guess (by rw [hD w hw, hH e he])]
      exact this
    · intro h e he
      have := h e he
      rw [generatePattern_eq_feedback w e.guess (by rw [hD w hw, hH e he])] at this
      exact this
  · intro hh
    rw [h2, hh]
    simp

/-- C15 on the hard-mode sample game (words "abbey", "babes", "crane", one
round "babes" answered "YYGGB"): one word remains, on both sides. -/
theorem remaining_words_eq_candidates_witness :
    (∀ w ∈ sampleHardGame.dictionary_, w.length = 5) ∧
    (∀ e ∈ sampleHardGame.history_, e.guess.length = 5) ∧
    getRemainingWords sampleHardGame = 1 ∧
    getRemainingWords sampleHardGame
      = ((sampleHardGame.history_.foldl (fun st e => st.update e.guess e.pattern)
          (MySolver.mk sampleHardGame.config_ sampleHardGame.dictionary_)).candidates_.length
            : Int) :=
  ⟨by decide, by decide, by decide,
   (remaining_words_eq_candidates sampleHardGame
      (MySolver.mk sampleHardGame.config_ sampleHardGame.dictionary_) 5
      (by decide) (by decide) rfl).1⟩

/-! ## Solver reset against the dictionary builder -/

/-- When every word has the length `L`, the copy loop of `buildDictionary`
inserts every word. -/
theorem buildLoop_all_inserted (ws : List Str) (g : IWordGame)
    (h : ∀ w ∈ ws, (w.length : Int) = g.config_.L) :
    (ws.foldl buildDictionaryStep g).dictionary_
      = ws.foldl (fun d w => setInsert w d) g.dictionary_ := by
  induction ws generalizing g with
  | nil => rfl
  | cons w rest ih =>
    rw [List.foldl_cons, List.foldl_cons]
    have hw : (w.length : Int) = g.config_.L := h w (List.mem_cons_self w rest)
    have hstep : buildDictionaryStep g w
        = { g with dictionary_ := setInsert w g.dictionary_ } := by
      unfold buildDictionaryStep
      rw [if_pos hw]
    rw [hstep]
    exact ih { g with dictionary_ := setInsert w g.dictionary_ }
      (fun x hx => h x (List.mem_cons_of_mem w hx))

/-- C16 as stated fails: on the sample configuration the word "ab" of the
wrong length is a candidate after `reset` and is not in the dictionary, and in
universe mode the candidates are the word list while the dictionary is the 26
one-letter words. -/
theorem reset_differs_from_dictionary :
    (0 < sampleConfig.L ∧ 0 < sampleConfig.T ∧
      ∃ g, IWordGame.IWordGame sampleConfig = Except.ok g ∧
        (MySolver.mk sampleConfig []).reset.candidates_
          = ["ab".toList, "crane".toList, "zebra".toList] ∧
        g.dictionary_ = ["crane".toList, "zebra".toList] ∧
        (MySolver.mk sampleConfig []).reset.candidates_ ≠ g.dictionary_) ∧
    (0 < universeConfig.L ∧ 0 < universeConfig.T ∧
      ∃ g, IWordGame.IWordGame universeConfig = Except.ok g ∧
        (MySolver.mk universeConfig []).reset.candidates_ = ["crane".toList] ∧
        g.dictionary_.length = 26 ∧
        (MySolver.mk universeConfig []).reset.candidates_ ≠ g.dictionary_) :=
  ⟨⟨by decide, by decide, _, rfl, by decide, by decide, by decide⟩,
   ⟨by decide, by decide, _, rfl, by decide, by decide, by decide⟩⟩

/-- C16, amended: for every configuration, whatever the candidate set held
before, the candidates after `reset` are the words of the word list, each
once and in increasing order; and when L > 0, T > 0, S is not 0 and every word
of the list has length L, that candidate set is the dictionary the game builds
from the same configuration. -/
theorem reset_eq_dictionary (s : MySolver) :
    (∀ w, w ∈ s.reset.candidates_ ↔ w ∈ s.config_.dict_words) ∧
    s.reset.candidates_.Nodup ∧
    SetSorted s.reset.candidates_ ∧
    s.reset.config_ = s.config_ ∧
    (0 < s.config_.L → 0 < s.config_.T → s.config_.S ≠ 0 →
      (∀ w ∈ s.config_.dict_words, (w.length : Int) = s.config_.L) →
      ∃ g, IWordGame.IWordGame s.config_ = Except.ok g ∧
        s.reset.candidates_ = g.dictionary_) := by
  obtain ⟨hconf, hfold, hsorted, hmem⟩ := reset_spec s
  refine ⟨hmem, nodup_of_sorted _ hsorted, hsorted, hconf, ?_⟩
  intro hL hT hS hlen
  have hcfg : ¬ (s.config_.L ≤ 0 ∨ s.config_.T ≤ 0) := by omega
  unfold IWordGame.IWordGame
  rw [if_neg hcfg]
  refine ⟨_, rfl, ?_⟩
  rw [hfold]
  unfold buildDictionary
  simp only [hS, decide_False, Bool.false_eq_true, if_false]
  rw [buildLoop_all_inserted _ _ hlen]

/-- C16, amended, on two solvers that hold a stray word before `reset`: on the
sample configuration ("zebra", "crane", "zebra", "ab", where the claim as
stated fails) the candidates are the words of the list, "ab" among them; on
the words "abbey", "babes", "crane" with S = 3 they are the dictionary of the
game. -/
theorem reset_eq_dictionary_witness :
    (MySolver.mk sampleConfig ["stray".toList]).reset.candidates_
      = ["ab".toList, "crane".toList, "zebra".toList] ∧
    (∀ w, w ∈ (MySolver.mk sampleConfig ["stray".toList]).reset.candidates_ ↔
      w ∈ (MySolver.mk sampleConfig ["stray".toList]).config_.dict_words) ∧
    (0 < sampleHardGame.config_.L ∧ 0 < sampleHardGame.config_.T ∧
      sampleHardGame.config_.S ≠ 0) ∧
    (∀ w ∈ sampleHardGame.config_.dict_words, (w.length : Int) = sampleHardGame.config_.L) ∧
    (MySolver.mk sampleHardGame.config_ ["stray".toList]).reset.candidates_
      = ["abbey".toList, "babes".toList, "crane".toList] ∧
    (∃ g, IWordGame.IWordGame (MySolver.mk sampleHardGame.config_ ["stray".toList]).config_
        = Except.ok g ∧
      (MySolver.mk sampleHardGame.config_ ["stray".toList]).reset.candidates_ = g.dictionary_) :=
  ⟨by decide,
   (reset_eq_dictionary (MySolver.mk sampleConfig ["stray".toList])).1,
   by decide, by decide, by decide,
   (reset_eq_dictionary (MySolver.mk sampleHardGame.config_ ["stray".toList])).2.2.2.2
      (by decide) (by decide) (by decide) (by decide)⟩

/-! ## Rounds and states -/

/-- The object after an accepted call of `makeGuess`. -/
theorem makeGuess_accepted_state (v : Variant) (g : IWordGame) (w : Str)
    (hs : g.state_ = GameState.PLAYING) (hv : isValidGuess v g w = true) :
    makeGuess v g w
      = (Except.ok (feedback g.secret_ w),
         updateGameState
           { g with history_ := g.history_ ++ [HistoryEntry.mk w (feedback g.secret_ w)],
                    current_round_ := g.current_round_ + 1 } w) := by
  unfold makeGuess
  simp [hs, hv]

/-- The object after a refused call of `makeGuess`. -/
theorem makeGuess_refused_state (v : Variant) (g : IWordGame) (w : Str)
    (h : g.state_ ≠ GameState.PLAYING ∨ isValidGuess v g w = false) :
    (makeGuess v g w).2 = g := by
  unfold makeGuess
  by_cases hs : g.state_ = GameState.PLAYING
  · rcases h with h | h
    · exact absurd hs h
    · simp [hs, h]
  · simp [hs]

/-- A call of `makeGuess`, accepted or refused, keeps the bookkeeping. -/
theorem makeGuess_keeps_invariant (v : Variant) (g : IWordGame) (w : Str)
    (h : RoundInvariant g) :
    RoundInvariant (makeGuess v g w).2 ∧ (makeGuess v g w).2.config_ = g.config_ := by
  by_cases hs : g.state_ = GameState.PLAYING
  · by_cases hv : isValidGuess v g w = true
    · rw [makeGuess_accepted_state v g w hs hv]
      obtain ⟨h1, h2, h3, h4, h5⟩ := h
      have hlt := h3 hs
      unfold updateGameState
      by_cases hw : w = g.secret_
      · rw [if_pos hw]
        refine ⟨⟨?_, ?_, ?_, ?_, ?_⟩, rfl⟩
        · show g.current_round_ + 1 = ((g.history_ ++ [_]).length : Int)
          rw [List.length_append, h1]
          simp
        · show g.current_round_ + 1 ≤ g.config_.T
          omega
        · intro hc; simp at hc
        · intro hc; simp at hc
        · simp
      · rw [if_neg hw]
        by_cases hl : g.current_round_ + 1 ≥ g.config_.T
        · rw [if_pos hl]
          refine ⟨⟨?_, ?_, ?_, ?_, ?_⟩, rfl⟩
          · show g.current_round_ + 1 = ((g.history_ ++ [_]).length : Int)
            rw [List.length_append, h1]
            simp
          · show g.current_round_ + 1 ≤ g.config_.T
            omega
          · intro hc; simp at hc
          · intro _
            show g.current_round_ + 1 = g.config_.T
            omega
          · simp
        · rw [if_neg hl]
          refine ⟨⟨?_, ?_, ?_, ?_, ?_⟩, rfl⟩
          · show g.current_round_ + 1 = ((g.history_ ++ [_]).length : Int)
            rw [List.length_append, h1]
            simp
          · show g.current_round_ + 1 ≤ g.config_.T
            omega
          · intro _
            show g.current_round_ + 1 < g.config_.T
            omega
          · intro hc
            have hc2 : g.state_ = GameState.LOST := hc
            rw [hs] at hc2
            simp at hc2
          · show g.state_ ≠ GameState.NOT_STARTED
            exact h5
    · have hvf : isValidGuess v g w = false := by simpa using hv
      rw [makeGuess_refused_state v g w (Or.inr hvf)]
      exact ⟨h, rfl⟩
  · rw [makeGuess_refused_state v g w (Or.inl hs)]
    exact ⟨h, rfl⟩

/-- Any sequence of `makeGuess` calls keeps the bookkeeping. -/
theorem guesses_keep_invariant (v : Variant) (guesses : List Str) (g : IWordGame)
    (h : RoundInvariant g) :
    RoundInvariant (guesses.foldl (fun st w => (makeGuess v st w).2) g) ∧
    (guesses.foldl (fun st w => (makeGuess v st w).2) g).config_ = g.config_ := by
  induction guesses generalizing g with
  | nil => exact ⟨h, rfl⟩
  | cons w rest ih =>
    rw [List.foldl_cons]
    obtain ⟨h1, h2⟩ := makeGuess_keeps_invariant v g w h
    obtain ⟨i1, i2⟩ := ih _ h1
    exact ⟨i1, by rw [i2, h2]⟩

/-- C19: in every state reached from `start(secret)`, on a game with T > 0 as
the constructor guarantees, by a sequence of `makeGuess` calls, accepted or
refused, the round counter is the length of the history and at most T; the
state is Playing only with the round counter below T and Lost only with the
round counter equal to T, so `getRemainingTries()` is 0 in a lost game. -/
theorem reachable_round_invariant (v : Variant) (g0 : IWordGame) (secret : Str)
    (guesses : List Str) (hT : 0 < g0.config_.T) :
    (guesses.foldl (fun st w => (makeGuess v st w).2) (start g0 secret)).current_round_
      = ((guesses.foldl (fun st w => (makeGuess v st w).2) (start g0 secret)).history_.length
          : Int) ∧
    (guesses.foldl (fun st w => (makeGuess v st w).2) (start g0 secret)).current_round_
      ≤ g0.config_.T ∧
    ((guesses.foldl (fun st w => (makeGuess v st w).2) (start g0 secret)).state_
        = GameState.PLAYING →
      (guesses.foldl (fun st w => (makeGuess v st w).2) (start g0 secret)).current_round_
        < g0.config_.T) ∧
    ((guesses.foldl (fun st w => (makeGuess v st w).2) (start g0 secret)).state_
        = GameState.LOST →
      (guesses.foldl (fun st w => (makeGuess v st w).2) (start g0 secret)).current_round_
        = g0.config_.T) ∧
    ((guesses.foldl (fun st w => (makeGuess v st w).2) (start g0 secret)).state_
        = GameState.LOST →
      getRemainingTries (guesses.foldl (fun st w => (makeGuess v st w).2) (start g0 secret))
        = 0) := by
  have hstart : RoundInvariant (start g0 secret) := by
    refine ⟨?_, ?_, ?_, ?_, ?_⟩
    · simp [start]
    · show (0 : Int) ≤ g0.config_.T
      omega
    · intro _
      show (0 : Int) < g0.config_.T
      exact hT
    · intro hc
      exact absurd hc (by simp [start])
    · simp [start]
  obtain ⟨⟨i1, i2, i3, i4, _⟩, hc⟩ := guesses_keep_invariant v guesses (start g0 secret) hstart
  have hc2 : (guesses.foldl (fun st w => (makeGuess v st w).2) (start g0 secret)).config_
      = g0.config_ := by rw [hc]; rfl
  rw [hc2] at i2 i3 i4
  refine ⟨i1, i2, i3, i4, ?_⟩
  intro hl
  unfold getRemainingTries
  rw [hc2, i4 hl]
  simp

/-- C19, the loss scenario: with T = 1 and the secret "zebra", the accepted
wrong guess "crane" takes the game from Playing to Lost after one round, with
no tries left. -/
theorem reachable_round_invariant_witness :
    0 < sampleGame.config_.T ∧
    (start sampleGame "zebra".toList).state_ = GameState.PLAYING ∧
    (["crane".toList].foldl (fun st w => (makeGuess Variant.ClassicWordle st w).2)
        (start sampleGame "zebra".toList)).state_ = GameState.LOST ∧
    (["crane".toList].foldl (fun st w => (makeGuess Variant.ClassicWordle st w).2)
        (start sampleGame "zebra".toList)).current_round_ = 1 ∧
    (["crane".toList].foldl (fun st w => (makeGuess Variant.ClassicWordle st w).2)
        (start sampleGame "zebra".toList)).current_round_ = sampleGame.config_.T ∧
    getRemainingTries
      (["crane".toList].foldl (fun st w => (makeGuess Variant.ClassicWordle st w).2)
        (start sampleGame "zebra".toList)) = 0 :=
  ⟨by decide, by decide, by decide, by decide,
   (reachable_round_invariant Variant.ClassicWordle sampleGame "zebra".toList
      ["crane".toList] (by decide)).2.2.2.1 (by decide),
   (reachable_round_invariant Variant.ClassicWordle sampleGame "zebra".toList
      ["crane".toList] (by decide)).2.2.2.2 (by decide)⟩

/-! ## Updates with the true feedback -/

/-- Only an exact match is marked `G`. -/
theorem refMark_green_iff (secret guess : Str) (i : Nat) :
    refMark secret guess i = 'G' ↔ at_ guess i = at_ secret i := by
  unfold refMark
  by_cases hg : at_ guess i = at_ secret i
  · simp [hg]
  · rw [if_neg hg]
    constructor
    · intro h
      split at h
      · exact absurd h (by decide)
      · exact absurd h (by decide)
    · intro h
      exact absurd h hg

/-- A guess that gets from the secret the pattern it gets from itself is the
secret. -/
theorem eq_of_self_pattern (secret guess : Str) (hlen : secret.length = guess.length)
    (h : feedback guess guess = feedback secret guess) : guess = secret := by
  have hat : ∀ i, i < guess.length → at_ guess i = at_ secret i := by
    intro i hi
    have h1 : at_ (feedback guess guess) i = 'G' := by
      rw [at_feedback guess guess i hi]
      exact (refMark_green_iff guess guess i).mpr rfl
    rw [h, at_feedback secret guess i (by omega)] at h1
    exact (refMark_green_iff secret guess i).mp h1
  rw [eq_map_range_at guess, eq_map_range_at secret, hlen]
  exact map_range_congr _ _ _ hat

/-- C20: for a secret and a guess of equal length and every candidate set,
after `update(guess, feedback(secret, guess))` the secret is still a candidate
if it was one, and a guess other than the secret is not a candidate; so an
update with the true feedback of a wrong guess taken from the set leaves a
strictly smaller set that still holds the secret. -/
theorem update_true_feedback (s : MySolver) (secret guess : Str)
    (hlen : secret.length = guess.length) :
    (secret ∈ s.candidates_ →
      secret ∈ (s.update guess (feedback secret guess)).candidates_) ∧
    (guess ≠ secret → guess ∉ (s.update guess (feedback secret guess)).candidates_) ∧
    (guess ∈ s.candidates_ → guess ≠ secret →
      (s.update guess (feedback secret guess)).candidates_.length < s.candidates_.length) := by
  have hupd : (s.update guess (feedback secret guess)).candidates_
      = s.candidates_.filter
          (fun c => decide (generatePattern c guess = feedback secret guess)) := by
    show updateLoop guess (feedback secret guess) s.candidates_ = _
    exact updateLoop_eq_filter _ _ _
  have hguess : guess ≠ secret → ¬ generatePattern guess guess = feedback secret guess := by
    intro hne hp
    rw [generatePattern_eq_feedback guess guess rfl] at hp
    exact hne (eq_of_self_pattern secret guess hlen hp)
  rw [hupd]
  refine ⟨?_, ?_, ?_⟩
  · intro hs
    rw [List.mem_filter]
    refine ⟨hs, ?_⟩
    rw [generatePattern_eq_feedback secret guess hlen]
    simp
  · intro hne hmem
    rw [List.mem_filter] at hmem
    exact hguess hne (by simpa using hmem.2)
  · intro hmem hne
    apply List.length_filter_lt_length_iff_exists.mpr
    exact ⟨guess, hmem, by simpa using hguess hne⟩

/-- C20 on the candidates "abbey", "babes", "crane" with secret "abbey" and
the wrong guess "babes": "abbey" stays, "babes" goes, the set shrinks. -/
theorem update_true_feedback_witness :
    "abbey".toList.length = "babes".toList.length ∧
    ((MySolver.mk sampleConfig ["abbey".toList, "babes".toList, "crane".toList]).update
        "babes".toList (feedback "abbey".toList "babes".toList)).candidates_
      = ["abbey".toList] ∧
    ("babes".toList ≠ "abbey".toList →
      "babes".toList ∉
        ((MySolver.mk sampleConfig ["abbey".toList, "babes".toList, "crane".toList]).update
          "babes".toList (feedback "abbey".toList "babes".toList)).candidates_) :=
  ⟨by decide, by decide,
   (update_true_feedback
      (MySolver.mk sampleConfig ["abbey".toList, "babes".toList, "crane".toList])
      "abbey".toList "babes".toList (by decide)).2.1⟩

/-! ## The judge of `wordle.cpp` against the game feedback -/

/-- A loop with a possibly undefined body over two ranges in a row. -/
theorem loopOpt_append {σ : Type} (f : σ → Nat → Option σ) (l1 l2 : List Nat) (s : σ) :
    loopOpt f (l1 ++ l2) s = (loopOpt f l1 s).bind (loopOpt f l2) := by
  induction l1 generalizing s with
  | nil => simp [loopOpt]
  | cons i rest ih =>
    simp only [List.cons_append, loopOpt]
    cases f s i with
    | none => rfl
    | some s1 => simp [ih]

/-- Two counted loops whose bodies keep a relation between their states stay
related, and the loop with the possibly undefined body has a result. -/
theorem loopOpt_range_sim {σ τ : Type} (f : σ → Nat → Option σ) (h : τ → Nat → τ)
    (R : Nat → σ → τ → Prop) (n : Nat) (s0 : σ) (t0 : τ) (h0 : R 0 s0 t0)
    (hstep : ∀ k s t, k < n → R k s t → ∃ s1, f s k = some s1 ∧ R (k + 1) s1 (h t k)) :
    ∃ s1, loopOpt f (List.range n) s0 = some s1 ∧ R n s1 ((List.range n).foldl h t0) := by
  have key : ∀ m, m ≤ n →
      ∃ s1, loopOpt f (List.range m) s0 = some s1 ∧ R m s1 ((List.range m).foldl h t0) := by
    intro m
    induction m with
    | zero => intro _; exact ⟨s0, rfl, by simpa using h0⟩
    | succ m ih =>
      intro hm
      obtain ⟨s1, e1, r1⟩ := ih (by omega)
      obtain ⟨s2, e2, r2⟩ := hstep m s1 _ (by omega) r1
      refine ⟨s2, ?_, ?_⟩
      · rw [List.range_succ, loopOpt_append, e1]
        simp [loopOpt, e2]
      · rw [List.range_succ, List.foldl_append]
        exact r2
  exact key n (Nat.le_refl n)

/-- Reading a string after one position was written. -/
theorem at_set (l : Str) (i j : Nat) (v : Char) (hi : i < l.length) :
    at_ (l.set i v) j = if j = i then v else at_ l j := by
  unfold at_
  rw [List.getD_eq_getElem?_getD, List.getD_eq_getElem?_getD, List.getElem?_set]
  by_cases hji : j = i
  · subst hji; simp [hi]
  · have : ¬ i = j := fun e => hji e.symm
    simp [hji, this]

/-- A character read inside a string is one of its characters. -/
theorem at_mem (l : Str) (i : Nat) (hi : i < l.length) : at_ l i ∈ l := by
  unfold at_
  rw [List.getD_eq_getElem l _ hi]
  exact List.getElem_mem hi

/-- The counter index of a lowercase letter. -/
theorem letterIndex_lower (c : Char) (h : c ∈ alphabet) :
    letterIndex c = some (c.toNat - 97) := by
  unfold letterIndex
  rw [if_pos ((mem_alphabet_iff c).mp h)]

/-- Writing the counter of one lowercase letter is the map update for that
letter. -/
theorem counts_set_agree (m : List Int) (f : CharMap) (c : Char) (v : Int)
    (hc : c ∈ alphabet) (h : CountsAgree m f) :
    CountsAgree (m.set (c.toNat - 97) v) (fun k => if k = c then v else f k) := by
  obtain ⟨h1, h2⟩ := h
  have hcb := (mem_alphabet_iff c).mp hc
  refine ⟨by rw [List.length_set]; exact h1, ?_⟩
  intro x hx1 hx2
  rw [List.getD_eq_getElem?_getD, List.getElem?_set]
  by_cases hxc : x = c
  · subst hxc
    have : x.toNat - 97 < m.length := by omega
    simp [this]
  · have hne : ¬ c.toNat - 97 = x.toNat - 97 := by
      intro e
      apply hxc
      exact char_eq_of_toNat_eq x c (by omega)
    rw [if_neg hne, ← List.getD_eq_getElem?_getD, h2 x hx1 hx2]
    simp [hxc]

/-- The judge increments the counter the game increments. -/
theorem countsIncr_agree (m : List Int) (f : CharMap) (c : Char)
    (hc : c ∈ alphabet) (h : CountsAgree m f) :
    ∃ m1, countsIncr m c = some m1 ∧ CountsAgree m1 (f.incr c) := by
  have hcb := (mem_alphabet_iff c).mp hc
  refine ⟨m.set (c.toNat - 97) (m.getD (c.toNat - 97) 0 + 1), ?_, ?_⟩
  · unfold countsIncr
    rw [letterIndex_lower c hc]
    rfl
  · have := counts_set_agree m f c (m.getD (c.toNat - 97) 0 + 1) hc h
    rw [h.2 c hcb.1 hcb.2] at this
    have hf : (fun k => if k = c then f c + 1 else f k) = f.incr c := by
      funext k
      unfold CharMap.incr
      by_cases hk : k = c
      · subst hk; simp
      · simp [hk]
    rw [hf] at this
    rw [h.2 c hcb.1 hcb.2]
    exact this

/-- The judge decrements the counter the game decrements. -/
theorem countsDecr_agree (m : List Int) (f : CharMap) (c : Char)
    (hc : c ∈ alphabet) (h : CountsAgree m f) :
    CountsAgree (m.set (c.toNat - 97) (m.getD (c.toNat - 97) 0 - 1)) (f.decr c) := by
  have hcb := (mem_alphabet_iff c).mp hc
  have := counts_set_agree m f c (m.getD (c.toNat - 97) 0 - 1) hc h
  rw [h.2 c hcb.1 hcb.2] at this
  have hf : (fun k => if k = c then f c - 1 else f k) = f.decr c := by
    funext k
    unfold CharMap.decr
    by_cases hk : k = c
    · subst hk; simp
    · simp [hk]
  rw [hf] at this
  rw [h.2 c hcb.1 hcb.2]
  exact this

/-- The counting loop of the judge follows the counting loop of the game. -/
theorem judgeCount_agree (secret : Str) (m : List Int) (f : CharMap)
    (hl : ∀ c ∈ secret, c ∈ alphabet) (h : CountsAgree m f) :
    ∃ m1, judgeCount secret m = some m1 ∧ CountsAgree m1 (secret.foldl CharMap.incr f) := by
  induction secret generalizing m f with
  | nil => exact ⟨m, rfl, h⟩
  | cons c rest ih =>
    obtain ⟨m1, e1, a1⟩ := countsIncr_agree m f c (hl c (List.mem_cons_self c rest)) h
    obtain ⟨m2, e2, a2⟩ := ih m1 (f.incr c) (fun x hx => hl x (List.mem_cons_of_mem c hx)) a1
    refine ⟨m2, ?_, ?_⟩
    · rw [judgeCount, e1]
      exact e2
    · rw [List.foldl_cons]
      exact a2

/-- What `countsDecr` returns for a lowercase letter. -/
theorem countsDecr_lower (m : List Int) (c : Char) (hc : c ∈ alphabet) :
    countsDecr m c = some (m.set (c.toNat - 97) (m.getD (c.toNat - 97) 0 - 1)) := by
  unfold countsDecr
  rw [letterIndex_lower c hc]
  rfl

/-- Reading a word of five letters at one of its positions. -/
theorem charAt_inside (w : Str) (k : Nat) (hw : w.length = 5) (hk : k < 5) :
    charAt w k = some (at_ w k) := by
  unfold charAt
  rw [if_pos (by omega)]

/-- One round of the green loop of the judge follows the game. -/
theorem judgeGreen_sim (secret guess : Str) (hs : secret.length = 5) (hg : guess.length = 5)
    (hgl : ∀ c ∈ guess, c ∈ alphabet) (k : Nat) (hk : k < 5)
    (sj : Str × List Int) (sf : Str × CharMap) (h : GreenSim sj sf) :
    ∃ s1, judgeGreenStep secret guess sj k = some s1 ∧
      GreenSim s1 (feedbackPass1Step secret guess sf k) := by
  obtain ⟨l1, l2, hp, hc⟩ := h
  have hga : at_ guess k ∈ alphabet := hgl _ (at_mem guess k (by omega))
  unfold judgeGreenStep feedbackPass1Step
  rw [charAt_inside guess k hg hk, charAt_inside secret k hs hk]
  simp only [Option.some_bind]
  by_cases hgs : at_ guess k = at_ secret k
  · rw [if_pos hgs, if_pos hgs, countsDecr_lower sj.2 _ hga]
    refine ⟨_, rfl, ?_⟩
    refine ⟨by simp [l1], by simp [l2], ?_, countsDecr_agree sj.2 sf.2 _ hga hc⟩
    intro i hi
    show at_ (sj.1.set k 'G') i = blankForBlack (at_ (sf.1.set k 'G') i)
    rw [at_set sj.1 k i 'G' (by omega), at_set sf.1 k i 'G' (by omega)]
    by_cases hik : i = k
    · simp [hik, blankForBlack]
    · simp only [hik, if_false]
      exact hp i hi
  · rw [if_neg hgs, if_neg hgs]
    exact ⟨sj, rfl, l1, l2, hp, hc⟩

/-- The blank of the judge is a mark other than `G` exactly where the game
has one. -/
theorem blankForBlack_green (c : Char) : blankForBlack c = 'G' ↔ c = 'G' := by
  unfold blankForBlack
  by_cases hc : c = 'B'
  · subst hc; decide
  · simp [hc]

/-- One round of the second loop of the judge follows the game. -/
theorem judgeYellow_sim (secret guess : Str) (hs : secret.length = 5) (hg : guess.length = 5)
    (hgl : ∀ c ∈ guess, c ∈ alphabet) (k : Nat) (hk : k < 5)
    (sj : Str × List Int) (sf : Str × CharMap) (h : YellowSim secret guess k sj sf) :
    ∃ s1, judgeYellowStep guess sj k = some s1 ∧
      YellowSim secret guess (k + 1) s1 (feedbackPass2Step guess sf k) := by
  obtain ⟨l1, l2, hp, hc, hinv⟩ := h
  have hinv2 := pass2_step secret guess k sf (by omega) hinv
  have hga : at_ guess k ∈ alphabet := hgl _ (at_mem guess k (by omega))
  have hgb := (mem_alphabet_iff _).mp hga
  have hjk : at_ sj.1 k = blankForBlack (at_ sf.1 k) := by
    have := hp k hk
    simpa using this
  have hfk : at_ sf.1 k = if isGreen secret guess k = true then 'G' else 'B' := by
    rw [hinv.1, at_map_range _ _ _ (by omega)]
    simp
  have hothers : ∀ i, i < 5 → i ≠ k →
      ((if i < k then at_ sf.1 i else blankForBlack (at_ sf.1 i))
        = if i < k + 1 then at_ sf.1 i else blankForBlack (at_ sf.1 i)) := by
    intro i _ hik
    by_cases h1 : i < k
    · have : i < k + 1 := by omega
      simp [h1, this]
    · have : ¬ i < k + 1 := by omega
      simp [h1, this]
  revert hinv2
  unfold judgeYellowStep feedbackPass2Step
  intro hinv2
  by_cases hG : at_ sf.1 k = 'G'
  · have hjG : ¬ (at_ sj.1 k ≠ 'G') := by
      rw [hjk]; simp [(blankForBlack_green _).mpr hG]
    have hfG : ¬ (at_ sf.1 k ≠ 'G') := by simp [hG]
    rw [if_neg hjG]
    rw [if_neg hfG] at hinv2 ⊢
    refine ⟨sj, rfl, l1, l2, ?_, hc, hinv2⟩
    intro i hi
    by_cases hik : i = k
    · subst hik
      rw [hjk, hG]
      simp [blankForBlack]
    · rw [hp i hi]
      exact hothers i hi hik
  · have hjG : at_ sj.1 k ≠ 'G' := by
      rw [hjk]
      intro e
      exact hG ((blankForBlack_green _).mp e)
    have hB : at_ sf.1 k = 'B' := by
      rw [hfk] at hG ⊢
      by_cases hgr : isGreen secret guess k = true
      · simp [hgr] at hG
      · simp [hgr]
    rw [if_pos hjG, charAt_inside guess k hg hk]
    rw [if_pos hG] at hinv2 ⊢
    simp only [Option.some_bind, letterIndex_lower _ hga]
    have hcnt : sj.2.getD ((at_ guess k).toNat - 97) 0 = sf.2 (at_ guess k) :=
      hc.2 _ hgb.1 hgb.2
    rw [hcnt]
    by_cases hpos : sf.2 (at_ guess k) > 0
    · rw [if_pos hpos] at hinv2 ⊢
      rw [if_pos hpos]
      refine ⟨_, rfl, by simp [l1], by simp [l2], ?_, ?_, hinv2⟩
      · intro i hi
        show at_ (sj.1.set k 'Y') i
          = if i < k + 1 then at_ (sf.1.set k 'Y') i else blankForBlack (at_ (sf.1.set k 'Y') i)
        rw [at_set sj.1 k i 'Y' (by omega), at_set sf.1 k i 'Y' (by omega)]
        by_cases hik : i = k
        · subst hik; simp
        · simp only [hik, if_false]
          rw [hp i hi]
          exact hothers i hi hik
      · have := countsDecr_agree sj.2 sf.2 _ hga hc
        rw [hcnt] at this
        exact this
    · rw [if_neg hpos] at hinv2 ⊢
      rw [if_neg hpos]
      refine ⟨_, rfl, by simp [l1], l2, ?_, hc, hinv2⟩
      intro i hi
      show at_ (sj.1.set k 'B') i = _
      rw [at_set sj.1 k i 'B' (by omega)]
      by_cases hik : i = k
      · subst hik
        simp [hB]
      · simp only [hik, if_false]
        rw [hp i hi]
        exact hothers i hi hik

/-- Strings of one length with the same characters are the same string. -/
theorem eq_of_at_eq (a b : Str) (n : Nat) (ha : a.length = n) (hb : b.length = n)
    (h : ∀ i, i < n → at_ a i = at_ b i) : a = b := by
  rw [eq_map_range_at a, eq_map_range_at b, ha, hb]
  exact map_range_congr _ _ _ h

/-- The start of the green loops: blanks against `'B'`. -/
theorem greenSim_start (m1 : List Int) (f : CharMap) (h : CountsAgree m1 f) :
    GreenSim (List.replicate 5 ' ', m1) (List.replicate 5 'B', f) := by
  refine ⟨by simp, by simp, ?_, h⟩
  intro i hi
  show at_ (List.replicate 5 ' ') i = blankForBlack (at_ (List.replicate 5 'B') i)
  have h5 : i = 0 ∨ i = 1 ∨ i = 2 ∨ i = 3 ∨ i = 4 := by omega
  rcases h5 with e | e | e | e | e <;> subst e <;> decide

/-- The empty counters of the judge against the empty map of the game. -/
theorem countsAgree_start : CountsAgree (List.replicate 26 0) CharMap.empty := by
  refine ⟨by simp, ?_⟩
  intro c _ _
  rw [List.getD_eq_getElem?_getD, List.getElem?_replicate]
  by_cases hc : c.toNat - 97 < 26
  · simp [hc, CharMap.empty]
  · simp [hc, CharMap.empty]

/-- On lowercase words of five letters the judge of `wordle.cpp` has a result,
the pattern of the game feedback. -/
theorem generate_feedback_eq (secret guess : Str)
    (hs : secret.length = 5) (hg : guess.length = 5)
    (hsl : ∀ c ∈ secret, c ∈ alphabet) (hgl : ∀ c ∈ guess, c ∈ alphabet) :
    generate_feedback secret guess = some (feedback secret guess) := by
  obtain ⟨m1, e1, a1⟩ := judgeCount_agree secret _ _ hsl countsAgree_start
  obtain ⟨s1, e2, r1⟩ := loopOpt_range_sim (judgeGreenStep secret guess)
    (feedbackPass1Step secret guess) (fun _ sj sf => GreenSim sj sf) 5
    (List.replicate 5 ' ', m1) (List.replicate 5 'B', countLetters secret)
    (greenSim_start m1 _ a1)
    (fun k sj sf hk h => judgeGreen_sim secret guess hs hg hgl k hk sj sf h)
  have hp2 := pass1_result secret guess
  rw [hs] at hp2
  obtain ⟨s2, e3, r2⟩ := loopOpt_range_sim (judgeYellowStep guess)
    (feedbackPass2Step guess) (YellowSim secret guess) 5 s1
    ((List.range 5).foldl (feedbackPass1Step secret guess)
      (List.replicate 5 'B', countLetters secret))
    ⟨r1.1, r1.2.1, fun i hi => by simpa using r1.2.2.1 i hi, r1.2.2.2, hp2⟩
    (fun k sj sf hk h => judgeYellow_sim secret guess hs hg hgl k hk sj sf h)
  obtain ⟨k1, k2, kp, _, _⟩ := r2
  have hfb : feedback secret guess
      = ((List.range 5).foldl (feedbackPass2Step guess)
          ((List.range 5).foldl (feedbackPass1Step secret guess)
            (List.replicate 5 'B', countLetters secret))).1 := by
    unfold feedback
    rw [hs]
  have hgf : generate_feedback secret guess = some s2.1 := by
    unfold generate_feedback
    rw [e1, Option.some_bind, e2, Option.some_bind, e3]
    rfl
  rw [hgf, hfb]
  apply congrArg some
  apply eq_of_at_eq _ _ 5 k1 k2
  intro i hi
  have hk := kp i hi
  rw [if_pos hi] at hk
  exact hk

/-- C17: for a candidate and a guess of equal length the solver routine
`generatePattern` returns the pattern of the game feedback, and when they are
lowercase words of length 5 the standalone `generate_feedback` has that
pattern as its result too. -/
theorem pattern_routines_agree (candidate guess : Str)
    (hlen : candidate.length = guess.length) :
    generatePattern candidate guess = feedback candidate guess ∧
    (candidate.length = 5 → allLowercase candidate = true → allLowercase guess = true →
      generate_feedback candidate guess = some (feedback candidate guess)) := by
  refine ⟨generatePattern_eq_feedback candidate guess hlen, ?_⟩
  intro h5 hc hg
  exact generate_feedback_eq candidate guess h5 (by omega)
    ((allLowercase_iff candidate).mp hc) ((allLowercase_iff guess).mp hg)

/-- C17 on the candidate "abbey" and the guess "babes": the three routines
return "YYGGB". -/
theorem pattern_routines_agree_witness :
    "abbey".toList.length = "babes".toList.length ∧
    generatePattern "abbey".toList "babes".toList = feedback "abbey".toList "babes".toList ∧
    generatePattern "abbey".toList "babes".toList = "YYGGB".toList ∧
    generate_feedback "abbey".toList "babes".toList
      = some (feedback "abbey".toList "babes".toList) :=
  ⟨by decide,
   (pattern_routines_agree "abbey".toList "babes".toList (by decide)).1,
   by decide,
   (pattern_routines_agree "abbey".toList "babes".toList (by decide)).2
     (by decide) (by decide) (by decide)⟩

/-! ## The solve loop -/

/-- A call of `makeGuess` leaves the dictionary as it was. -/
theorem makeGuess_keeps_dictionary (v : Variant) (g : IWordGame) (w : Str) :
    (makeGuess v g w).2.dictionary_ = g.dictionary_ := by
  by_cases hs : g.state_ = GameState.PLAYING
  · by_cases hv : isValidGuess v g w = true
    · rw [makeGuess_accepted_state v g w hs hv]
      unfold updateGameState
      split
      · rfl
      · split <;> rfl
    · have hvf : isValidGuess v g w = false := by simpa using hv
      rw [makeGuess_refused_state v g w (Or.inr hvf)]
  · rw [makeGuess_refused_state v g w (Or.inl hs)]

/-- An accepted call of `makeGuess` adds one to the round counter. -/
theorem makeGuess_accepted_round (v : Variant) (g : IWordGame) (w : Str)
    (hs : g.state_ = GameState.PLAYING) (hv : isValidGuess v g w = true) :
    (makeGuess v g w).2.current_round_ = g.current_round_ + 1 := by
  rw [makeGuess_accepted_state v g w hs hv]
  unfold updateGameState
  split
  · rfl
  · split <;> rfl

/-- The solve loop on a dictionary-only game whose candidates are non-empty
dictionary words: with fuel above the tries left it ends, every guess having
been accepted, with the counter equal to the round counter, in a finished game
or with no candidate left. -/
theorem solveLoop_spec (T : Int) (D : StrSet) (fuel : Nat) (game : IWordGame)
    (solver : MySolver) (gm : Int)
    (hinv : SolveInvariant T D game solver gm)
    (hfuel : (T - game.current_round_).toNat < fuel) :
    ∃ game1 solver1,
      solveLoop Variant.ClassicWordle fuel game solver gm
        = some (game1, solver1, game1.current_round_) ∧
      RoundInvariant game1 ∧ game1.config_.T = T ∧
      (isGameOver game1 = true ∨ solver1.candidates_ = []) := by
  induction fuel generalizing game solver gm with
  | zero => omega
  | succ fuel ih =>
    obtain ⟨hr, hT, hD, hgm, hc⟩ := hinv
    rw [solveLoop]
    by_cases hover : isGameOver game = true
    · rw [if_pos hover]
      exact ⟨game, solver, by rw [hgm], hr, hT, Or.inl hover⟩
    · rw [if_neg hover]
      have hplay : game.state_ = GameState.PLAYING := by
        have h5 := hr.2.2.2.2
        unfold isGameOver at hover
        cases hst : game.state_ with
        | NOT_STARTED => exact absurd hst h5
        | PLAYING => rfl
        | WON => rw [hst] at hover; exact absurd rfl hover
        | LOST => rw [hst] at hover; exact absurd rfl hover
      cases hcand : solver.candidates_ with
      | nil =>
        have he : solver.chooseBestGuess.isEmpty = true := by
          unfold MySolver.chooseBestGuess
          rw [hcand]
          rfl
        rw [if_pos he]
        exact ⟨game, solver, by rw [hgm], hr, hT, Or.inr hcand⟩
      | cons first rest =>
        have hbest : solver.chooseBestGuess = first := by
          unfold MySolver.chooseBestGuess
          rw [hcand]
        have hfirst := hc first (by rw [hcand]; exact List.mem_cons_self first rest)
        have he : ¬ solver.chooseBestGuess.isEmpty = true := by
          rw [hbest]
          cases first with
          | nil => exact absurd rfl hfirst.2
          | cons a as => simp
        rw [if_neg he, hbest]
        have hv : isValidGuess Variant.ClassicWordle game first = true := by
          show setFind first game.dictionary_ = true
          rw [setFind_iff_mem, hD]
          exact hfirst.1
        have hmk := makeGuess_accepted_state Variant.ClassicWordle game first hplay hv
        have hround := makeGuess_accepted_round Variant.ClassicWordle game first hplay hv
        have hkeep := makeGuess_keeps_invariant Variant.ClassicWordle game first hr
        have hdict := makeGuess_keeps_dictionary Variant.ClassicWordle game first
        have h1 : (makeGuess Variant.ClassicWordle game first).1
            = Except.ok (feedback game.secret_ first) := by rw [hmk]
        rw [h1]
        simp only []
        have hlt := hr.2.2.1 hplay
        apply ih
        · refine ⟨hkeep.1, by rw [hkeep.2, hT], by rw [hdict, hD], by rw [hround, hgm], ?_⟩
          intro c hcm
          have hsub : c ∈ solver.candidates_ := by
            have : c ∈ updateLoop first (feedback game.secret_ first) solver.candidates_ := hcm
            rw [updateLoop_eq_filter] at this
            exact (List.mem_filter.mp this).1
          exact hc c hsub
        · rw [hround]
          omega

/-- The game built from a configuration with a word list (`S` not 0): it holds
the configuration, and its dictionary is the words of length `L`. -/
theorem constructed_with_list (cfg : Config) (g0 : IWordGame)
    (hg : IWordGame.IWordGame cfg = Except.ok g0) (hS : cfg.S ≠ 0) :
    g0.config_ = cfg ∧
    ∀ w, w ∈ g0.dictionary_ ↔ (w ∈ cfg.dict_words ∧ (w.length : Int) = cfg.L) := by
  unfold IWordGame.IWordGame at hg
  by_cases hc : cfg.L ≤ 0 ∨ cfg.T ≤ 0
  · rw [if_pos hc] at hg
    exact absurd hg (by simp)
  · rw [if_neg hc] at hg
    have hg2 := Except.ok.inj hg
    rw [← hg2]
    refine ⟨(buildDictionary_fields _).1, ?_⟩
    unfold buildDictionary
    simp only [hS, decide_False, Bool.false_eq_true, if_false]
    intro w
    rw [(buildLoop_spec cfg.dict_words _).2.2.2.1 w]
    simp

/-- C18: for a dictionary-only game and a solver built from one configuration
with L > 0, T > 0, S > 0 and all words of length L, and a secret of length L,
`solve(game, secret)` ends whenever the fuel exceeds T: every guess is accepted,
at most T of them are made, the game ends Won or Lost or the candidates run
out, and the result is the number of guesses made when the game is Won and -1
otherwise. -/
theorem solve_result (cfg : Config) (g0 : IWordGame) (s : MySolver) (secret : Str)
    (fuel : Nat)
    (hL : 0 < cfg.L) (hT : 0 < cfg.T) (hS : 0 < cfg.S)
    (hlen : ∀ w ∈ cfg.dict_words, (w.length : Int) = cfg.L)
    (hg : IWordGame.IWordGame cfg = Except.ok g0) (hs : s.config_ = cfg)
    (_hsec : (secret.length : Int) = cfg.L) (hfuel : cfg.T.toNat < fuel) :
    ∃ n game solver,
      solve Variant.ClassicWordle fuel s g0 secret = some (n, game, solver) ∧
      game.current_round_ = (game.history_.length : Int) ∧
      game.current_round_ ≤ cfg.T ∧
      (game.state_ = GameState.WON ∨ game.state_ = GameState.LOST
        ∨ solver.candidates_ = []) ∧
      (game.state_ = GameState.WON → n = game.current_round_) ∧
      (game.state_ ≠ GameState.WON → n = -1) := by
  obtain ⟨hconf, hdict⟩ := constructed_with_list cfg g0 hg (by omega)
  obtain ⟨_, _, _, hmem⟩ := reset_spec s
  have hstart : SolveInvariant cfg.T g0.dictionary_ (start g0 secret) s.reset 0 := by
    refine ⟨⟨?_, ?_, ?_, ?_, ?_⟩, ?_, rfl, rfl, ?_⟩
    · simp [start]
    · show (0 : Int) ≤ g0.config_.T
      rw [hconf]; omega
    · intro _
      show (0 : Int) < g0.config_.T
      rw [hconf]; exact hT
    · intro hc
      exact absurd hc (by simp [start])
    · simp [start]
    · show g0.config_.T = cfg.T
      rw [hconf]
    · intro c hc
      have hcw : c ∈ cfg.dict_words := by
        rw [← hs]
        exact (hmem c).mp hc
      have hcl := hlen c hcw
      refine ⟨(hdict c).mpr ⟨hcw, hcl⟩, ?_⟩
      intro e
      rw [e] at hcl
      simp at hcl
      omega
  obtain ⟨game1, solver1, hloop, hr, hT1, hend⟩ :=
    solveLoop_spec cfg.T g0.dictionary_ fuel (start g0 secret) s.reset 0 hstart
      (by
        show (cfg.T - 0).toNat < fuel
        simpa using hfuel)
  refine ⟨if hasWon game1 = true then game1.current_round_ else -1, game1, solver1,
    ?_, hr.1, ?_, ?_, ?_, ?_⟩
  · unfold solve
    rw [hloop]
    rfl
  · rw [← hT1]
    exact hr.2.1
  · rcases hend with h | h
    · unfold isGameOver at h
      cases hst : game1.state_ with
      | NOT_STARTED => rw [hst] at h; exact absurd h (by decide)
      | PLAYING => rw [hst] at h; exact absurd h (by decide)
      | WON => exact Or.inl rfl
      | LOST => exact Or.inr (Or.inl rfl)
    · exact Or.inr (Or.inr h)
  · intro hw
    have : hasWon game1 = true := by unfold hasWon; simp [hw]
    rw [if_pos this]
  · intro hw
    have : ¬ hasWon game1 = true := by unfold hasWon; simp [hw]
    rw [if_neg this]

/-- C18 on the words "abbey", "babes", "crane" with six tries: for the secret
"crane" the solver wins with its second guess, and for the secret "zebra",
which is no dictionary word, the candidates run out and the result is -1. -/
theorem solve_result_witness :
    (0 < sampleHardGame.config_.L ∧ 0 < sampleHardGame.config_.T ∧
      0 < sampleHardGame.config_.S) ∧
    (∀ w ∈ sampleHardGame.config_.dict_words,
      (w.length : Int) = sampleHardGame.config_.L) ∧
    IWordGame.IWordGame sampleHardGame.config_ = Except.ok threeWordGame ∧
    (solve Variant.ClassicWordle 7 (MySolver.mk sampleHardGame.config_ []) threeWordGame
        "crane".toList).map (fun r => (r.1, r.2.1.state_)) = some (2, GameState.WON) ∧
    (solve Variant.ClassicWordle 7 (MySolver.mk sampleHardGame.config_ []) threeWordGame
        "zebra".toList).map (fun r => (r.1, r.2.1.state_, r.2.2.candidates_))
      = some (-1, GameState.PLAYING, []) ∧
    (∃ n game solver,
      solve Variant.ClassicWordle 7 (MySolver.mk sampleHardGame.config_ []) threeWordGame
        "crane".toList = some (n, game, solver) ∧
      game.current_round_ ≤ sampleHardGame.config_.T) :=
  ⟨by decide, by decide, rfl, by decide, by decide,
   match solve_result sampleHardGame.config_ threeWordGame
      (MySolver.mk sampleHardGame.config_ []) "crane".toList 7
      (by decide) (by decide) (by decide) (by decide) rfl rfl (by decide) (by decide) with
   | ⟨n, game, solver, h1, _, h3, _⟩ => ⟨n, game, solver, h1, h3⟩⟩

/-! ## The solver never loses on a dictionary secret -/

/-- The state and the secret after an accepted call of `makeGuess`. -/
theorem makeGuess_accepted_fields (v : Variant) (g : IWordGame) (w : Str)
    (hs : g.state_ = GameState.PLAYING) (hv : isValidGuess v g w = true) :
    (makeGuess v g w).2.secret_ = g.secret_ ∧
    (makeGuess v g w).2.history_
      = g.history_ ++ [HistoryEntry.mk w (feedback g.secret_ w)] ∧
    (w = g.secret_ → (makeGuess v g w).2.state_ = GameState.WON) ∧
    (w ≠ g.secret_ → g.current_round_ + 1 < g.config_.T →
      (makeGuess v g w).2.state_ = GameState.PLAYING) := by
  rw [makeGuess_accepted_state v g w hs hv]
  unfold updateGameState
  by_cases hw : w = g.secret_
  · rw [if_pos hw]
    exact ⟨rfl, rfl, fun _ => rfl, fun h => absurd hw h⟩
  · rw [if_neg hw]
    by_cases hl : g.current_round_ + 1 ≥ g.config_.T
    · rw [if_pos hl]
      refine ⟨rfl, rfl, fun h => absurd h hw, ?_⟩
      intro _ hlt
      have hl2 : g.config_.T ≤ g.current_round_ + 1 := hl
      omega
    · rw [if_neg hl]
      exact ⟨rfl, rfl, fun h => absurd h hw, fun _ _ => hs⟩

/-- An update with the true feedback of a wrong guess keeps the secret and
drops the guess, among candidates of the length of the secret. -/
theorem update_shrinks (cands : StrSet) (secret guess : Str)
    (hlen : secret.length = guess.length)
    (hsec : secret ∈ cands) (hguess : guess ∈ cands) (hne : guess ≠ secret) :
    secret ∈ updateLoop guess (feedback secret guess) cands ∧
    (updateLoop guess (feedback secret guess) cands).length < cands.length ∧
    ∀ c ∈ updateLoop guess (feedback secret guess) cands, c ∈ cands := by
  rw [updateLoop_eq_filter]
  refine ⟨?_, ?_, ?_⟩
  · rw [List.mem_filter]
    refine ⟨hsec, ?_⟩
    rw [generatePattern_eq_feedback secret guess hlen]
    simp
  · apply List.length_filter_lt_length_iff_exists.mpr
    refine ⟨guess, hguess, ?_⟩
    intro hp
    have hp2 : generatePattern guess guess = feedback secret guess := by simpa using hp
    rw [generatePattern_eq_feedback guess guess rfl] at hp2
    exact hne (eq_of_self_pattern secret guess hlen hp2)
  · intro c hc
    exact (List.mem_filter.mp hc).1

/-- The solve loop on a dictionary-only game whose secret is a candidate, when
the `N` dictionary words are within the `T` tries: with fuel above the tries
left it ends with the game won, after at least one and at most `N` rounds. -/
theorem solveLoop_wins (T N : Int) (D : StrSet) (secret : Str) (hNT : N ≤ T) (fuel : Nat)
    (game : IWordGame) (solver : MySolver) (gm : Int)
    (hinv : SolveInvariant T D game solver gm)
    (hwin : WinInvariant N secret game solver)
    (hfuel : (T - game.current_round_).toNat < fuel) :
    ∃ game1 solver1,
      solveLoop Variant.ClassicWordle fuel game solver gm
        = some (game1, solver1, game1.current_round_) ∧
      game1.state_ = GameState.WON ∧
      1 ≤ game1.current_round_ ∧ game1.current_round_ ≤ N := by
  induction fuel generalizing game solver gm with
  | zero => omega
  | succ fuel ih =>
    obtain ⟨hr, hT, hD, hgm, hc⟩ := hinv
    obtain ⟨wsec, wlen, wplay, wlost, wwon⟩ := hwin
    rw [solveLoop]
    by_cases hover : isGameOver game = true
    · rw [if_pos hover]
      have hst : game.state_ = GameState.WON := by
        unfold isGameOver at hover
        cases hs : game.state_ with
        | NOT_STARTED => rw [hs] at hover; exact absurd hover (by decide)
        | PLAYING => rw [hs] at hover; exact absurd hover (by decide)
        | WON => rfl
        | LOST => exact absurd hs wlost
      exact ⟨game, solver, by rw [hgm], hst, (wwon hst).1, (wwon hst).2⟩
    · rw [if_neg hover]
      have hplay : game.state_ = GameState.PLAYING := by
        have h5 := hr.2.2.2.2
        unfold isGameOver at hover
        cases hst : game.state_ with
        | NOT_STARTED => exact absurd hst h5
        | PLAYING => rfl
        | WON => rw [hst] at hover; exact absurd rfl hover
        | LOST => rw [hst] at hover; exact absurd rfl hover
      obtain ⟨hsecmem, hbound⟩ := wplay hplay
      have hround0 : 0 ≤ game.current_round_ := by rw [hr.1]; omega
      cases hcand : solver.candidates_ with
      | nil => rw [hcand] at hsecmem; exact absurd hsecmem (by simp)
      | cons first rest =>
        have hbest : solver.chooseBestGuess = first := by
          unfold MySolver.chooseBestGuess
          rw [hcand]
        have hfmem : first ∈ solver.candidates_ := by
          rw [hcand]; exact List.mem_cons_self first rest
        have hfirst := hc first hfmem
        have he : ¬ solver.chooseBestGuess.isEmpty = true := by
          rw [hbest]
          cases first with
          | nil => exact absurd rfl hfirst.2
          | cons a as => simp
        rw [if_neg he, hbest]
        have hv : isValidGuess Variant.ClassicWordle game first = true := by
          show setFind first game.dictionary_ = true
          rw [setFind_iff_mem, hD]
          exact hfirst.1
        have hmk := makeGuess_accepted_state Variant.ClassicWordle game first hplay hv
        have hround := makeGuess_accepted_round Variant.ClassicWordle game first hplay hv
        have hkeep := makeGuess_keeps_invariant Variant.ClassicWordle game first hr
        have hdict := makeGuess_keeps_dictionary Variant.ClassicWordle game first
        obtain ⟨fsec, _, fwon, fplay⟩ :=
          makeGuess_accepted_fields Variant.ClassicWordle game first hplay hv
        have h1 : (makeGuess Variant.ClassicWordle game first).1
            = Except.ok (feedback game.secret_ first) := by rw [hmk]
        rw [h1]
        simp only []
        have hlt := hr.2.2.1 hplay
        have hlen1 : ((first :: rest).length : Int) = (rest.length : Int) + 1 := by simp
        rw [hcand] at hbound
        have hsubset : ∀ c ∈ (solver.update first (feedback game.secret_ first)).candidates_,
            c ∈ solver.candidates_ := by
          intro c hcm
          have : c ∈ updateLoop first (feedback game.secret_ first) solver.candidates_ := hcm
          rw [updateLoop_eq_filter] at this
          exact (List.mem_filter.mp this).1
        apply ih
        · exact ⟨hkeep.1, by rw [hkeep.2, hT], by rw [hdict, hD], by rw [hround, hgm],
            fun c hcm => hc c (hsubset c hcm)⟩
        · by_cases hw : first = game.secret_
          · have hst := fwon hw
            refine ⟨by rw [fsec, wsec], fun c hcm => wlen c (hsubset c hcm), ?_, ?_, ?_⟩
            · intro hp
              rw [hst] at hp
              exact absurd hp (by decide)
            · rw [hst]; decide
            · intro _
              rw [hround]
              omega
          · have hsr : secret ∈ rest := by
              rw [hcand] at hsecmem
              rcases List.mem_cons.mp hsecmem with e | e
              · exact absurd (by rw [wsec, e]) hw
              · exact e
            have hrest : 1 ≤ (rest.length : Int) := by
              have : 0 < rest.length := List.length_pos_of_mem hsr
              omega
            have hst := fplay hw (by rw [hT]; omega)
            have hshr := update_shrinks solver.candidates_ secret first
              (wlen first hfmem).symm hsecmem hfmem (by rw [← wsec]; exact hw)
            refine ⟨by rw [fsec, wsec], fun c hcm => wlen c (hsubset c hcm), ?_, ?_, ?_⟩
            · intro _
              have hupd : (solver.update first (feedback game.secret_ first)).candidates_
                  = updateLoop first (feedback secret first) solver.candidates_ := by
                rw [wsec]; rfl
              rw [hupd, hround]
              refine ⟨hshr.1, ?_⟩
              have h2 := hshr.2.1
              rw [hcand] at h2
              have h3 : ((updateLoop first (feedback secret first) (first :: rest)).length : Int)
                  < ((first :: rest).length : Int) := by exact_mod_cast h2
              rw [hcand]
              omega
            · rw [hst]; decide
            · intro hwon
              rw [hst] at hwon
              exact absurd hwon (by decide)
        · rw [hround]
          omega

/-- After `reset` the candidates number the distinct words of the word list. -/
theorem reset_length (s : MySolver) :
    s.reset.candidates_.length = s.config_.dict_words.toFinset.card := by
  obtain ⟨_, _, hsorted, hmem⟩ := reset_spec s
  rw [← List.toFinset_card_of_nodup (nodup_of_sorted _ hsorted)]
  congr 1
  ext w
  rw [List.mem_toFinset, List.mem_toFinset]
  exact hmem w

/-- C21: for a dictionary-only game and a solver built from one configuration
with L > 0, S > 0 and all words of length L, if the secret is one of the words
and T is at least the number of distinct words, then `solve(game, secret)`
ends, for any fuel above T, with the game Won, and returns the number of
guesses made, which is at least 1 and at most the number of distinct words:
the solver never loses. -/
theorem solve_never_loses (cfg : Config) (g0 : IWordGame) (s : MySolver) (secret : Str)
    (fuel : Nat)
    (hL : 0 < cfg.L) (hS : 0 < cfg.S)
    (hlen : ∀ w ∈ cfg.dict_words, (w.length : Int) = cfg.L)
    (hg : IWordGame.IWordGame cfg = Except.ok g0) (hs : s.config_ = cfg)
    (hsec : secret ∈ cfg.dict_words)
    (hT : (cfg.dict_words.toFinset.card : Int) ≤ cfg.T)
    (hfuel : cfg.T.toNat < fuel) :
    ∃ n game solver,
      solve Variant.ClassicWordle fuel s g0 secret = some (n, game, solver) ∧
      game.state_ = GameState.WON ∧
      n = game.current_round_ ∧
      1 ≤ n ∧ n ≤ (cfg.dict_words.toFinset.card : Int) := by
  obtain ⟨hconf, hdict⟩ := constructed_with_list cfg g0 hg (by omega)
  obtain ⟨_, _, _, hmem⟩ := reset_spec s
  have hcount := reset_length s
  rw [hs] at hcount
  have hsecc : secret ∈ s.reset.candidates_ := by
    rw [hmem secret, hs]; exact hsec
  have hpos : 0 < s.reset.candidates_.length := List.length_pos_of_mem hsecc
  have hTpos : 0 < cfg.T := by omega
  have hcw : ∀ c ∈ s.reset.candidates_, c ∈ cfg.dict_words := by
    intro c hc
    rw [← hs]
    exact (hmem c).mp hc
  have hstart : SolveInvariant cfg.T g0.dictionary_ (start g0 secret) s.reset 0 := by
    refine ⟨⟨?_, ?_, ?_, ?_, ?_⟩, ?_, rfl, rfl, ?_⟩
    · simp [start]
    · show (0 : Int) ≤ g0.config_.T
      rw [hconf]; omega
    · intro _
      show (0 : Int) < g0.config_.T
      rw [hconf]; exact hTpos
    · intro hc
      exact absurd hc (by simp [start])
    · simp [start]
    · show g0.config_.T = cfg.T
      rw [hconf]
    · intro c hc
      have hcl := hlen c (hcw c hc)
      refine ⟨(hdict c).mpr ⟨hcw c hc, hcl⟩, ?_⟩
      intro e
      rw [e] at hcl
      simp at hcl
      omega
  have hwin : WinInvariant (cfg.dict_words.toFinset.card : Int) secret
      (start g0 secret) s.reset := by
    refine ⟨rfl, ?_, ?_, ?_, ?_⟩
    · intro c hc
      have h1 := hlen c (hcw c hc)
      have h2 := hlen secret hsec
      omega
    · intro _
      refine ⟨hsecc, ?_⟩
      show (0 : Int) + (s.reset.candidates_.length : Int) ≤ _
      rw [hcount]
      omega
    · simp [start]
    · intro hc
      exact absurd hc (by simp [start])
  obtain ⟨game1, solver1, hloop, hwon, h1, h2⟩ :=
    solveLoop_wins cfg.T (cfg.dict_words.toFinset.card : Int) g0.dictionary_ secret hT fuel
      (start g0 secret) s.reset 0 hstart hwin
      (by
        show (cfg.T - 0).toNat < fuel
        simpa using hfuel)
  refine ⟨game1.current_round_, game1, solver1, ?_, hwon, rfl, h1, h2⟩
  unfold solve
  rw [hloop]
  have hw : hasWon game1 = true := by unfold hasWon; simp [hwon]
  simp [hw]

/-- C21 on the words "abbey", "babes", "crane" with six tries and the secret
"crane": the solver wins with its second guess. -/
theorem solve_never_loses_witness :
    (0 < sampleHardGame.config_.L ∧ 0 < sampleHardGame.config_.S) ∧
    (∀ w ∈ sampleHardGame.config_.dict_words,
      (w.length : Int) = sampleHardGame.config_.L) ∧
    "crane".toList ∈ sampleHardGame.config_.dict_words ∧
    (sampleHardGame.config_.dict_words.toFinset.card : Int) ≤ sampleHardGame.config_.T ∧
    (solve Variant.ClassicWordle 7 (MySolver.mk sampleHardGame.config_ []) threeWordGame
        "crane".toList).map (fun r => (r.1, r.2.1.state_)) = some (2, GameState.WON) ∧
    (∃ n game solver,
      solve Variant.ClassicWordle 7 (MySolver.mk sampleHardGame.config_ []) threeWordGame
        "crane".toList = some (n, game, solver) ∧
      game.state_ = GameState.WON ∧ 1 ≤ n) :=
  ⟨by decide, by decide, by decide, by decide, by decide,
   match solve_never_loses sampleHardGame.config_ threeWordGame
      (MySolver.mk sampleHardGame.config_ []) "crane".toList 7
      (by decide) (by decide) (by decide) rfl rfl (by decide) (by decide) (by decide) with
   | ⟨n, game, solver, h1, h2, _, h4, _⟩ => ⟨n, game, solver, h1, h2, h4⟩⟩

/-! ## Hard mode never forbids the secret -/

/-- A call of `makeGuess`, accepted or refused, records only true feedback. -/
theorem makeGuess_keeps_truthful (v : Variant) (secret : Str) (D : StrSet)
    (g : IWordGame) (w : Str) (h : TruthfulHistory secret D g) :
    TruthfulHistory secret D (makeGuess v g w).2 := by
  obtain ⟨h1, h2, h3⟩ := h
  by_cases hs : g.state_ = GameState.PLAYING
  · by_cases hv : isValidGuess v g w = true
    · obtain ⟨fsec, fhist, _, _⟩ := makeGuess_accepted_fields v g w hs hv
      refine ⟨by rw [fsec, h1], by rw [makeGuess_keeps_dictionary, h2], ?_⟩
      intro e he
      rw [fhist, List.mem_append, List.mem_singleton] at he
      rcases he with he | he
      · exact h3 e he
      · rw [he, h1]
    · have hvf : isValidGuess v g w = false := by simpa using hv
      rw [makeGuess_refused_state v g w (Or.inr hvf)]
      exact ⟨h1, h2, h3⟩
  · rw [makeGuess_refused_state v g w (Or.inl hs)]
    exact ⟨h1, h2, h3⟩

/-- Any sequence of `makeGuess` calls records only true feedback. -/
theorem guesses_keep_truthful (v : Variant) (secret : Str) (D : StrSet)
    (guesses : List Str) (g : IWordGame) (h : TruthfulHistory secret D g) :
    TruthfulHistory secret D (guesses.foldl (fun st w => (makeGuess v st w).2) g) := by
  induction guesses generalizing g with
  | nil => exact h
  | cons w rest ih =>
    rw [List.foldl_cons]
    exact ih _ (makeGuess_keeps_truthful v secret D g w h)

/-- C22: in every hard-mode state reached from `start(secret)` by a sequence of
`makeGuess` calls, where the secret has length L and is in the dictionary,
every history entry `(g, p)` has `p = feedback(secret, g)`; so
`isValidGuess(secret)` is true, hard mode never forbidding the winning guess,
and `getRemainingWords()` is at least 1. -/
theorem hard_secret_stays_valid (g0 : IWordGame) (secret : Str) (guesses : List Str)
    (hmem : secret ∈ g0.dictionary_) (_hlen : (secret.length : Int) = g0.config_.L) :
    (∀ e ∈ (guesses.foldl (fun st w => (makeGuess Variant.HardWordle st w).2)
        (start g0 secret)).history_, e.pattern = feedback secret e.guess) ∧
    isValidGuess Variant.HardWordle
      (guesses.foldl (fun st w => (makeGuess Variant.HardWordle st w).2) (start g0 secret))
      secret = true ∧
    1 ≤ getRemainingWords
      (guesses.foldl (fun st w => (makeGuess Variant.HardWordle st w).2)
        (start g0 secret)) := by
  have hstart : TruthfulHistory secret g0.dictionary_ (start g0 secret) := by
    refine ⟨rfl, rfl, ?_⟩
    intro e he
    exact absurd he (by simp [start])
  obtain ⟨h1, h2, h3⟩ :=
    guesses_keep_truthful Variant.HardWordle secret g0.dictionary_ guesses _ hstart
  refine ⟨h3, ?_, ?_⟩
  · show HardWordle.isValidGuess _ secret = true
    unfold HardWordle.isValidGuess HardWordle.isValidWord
    have hfind : setFind secret
        (guesses.foldl (fun st w => (makeGuess Variant.HardWordle st w).2)
          (start g0 secret)).dictionary_ = true := by
      rw [setFind_iff_mem, h2]
      exact hmem
    rw [hfind]
    simp only [Bool.not_true, Bool.false_eq_true, if_false]
    rw [historyLoop_iff]
    intro e he
    exact (h3 e he).symm
  · rw [getRemainingWords_eq]
    have hin : secret ∈ List.filter
        (fun w => possibleSecret w
          (guesses.foldl (fun st w => (makeGuess Variant.HardWordle st w).2)
            (start g0 secret)).history_)
        (guesses.foldl (fun st w => (makeGuess Variant.HardWordle st w).2)
          (start g0 secret)).dictionary_ := by
      rw [List.mem_filter, h2]
      refine ⟨hmem, ?_⟩
      rw [possibleSecret_iff]
      intro e he
      exact (h3 e he).symm
    have hpos := List.length_pos_of_mem hin
    omega

/-- C22 on the words "abbey", "babes", "crane" with the secret "abbey": after
the accepted guess "babes" and the guess "crane", which hard mode refuses, the
history holds ("babes", "YYGGB"), the secret is a valid guess and one word
remains. -/
theorem hard_secret_stays_valid_witness :
    "abbey".toList ∈ threeWordGame.dictionary_ ∧
    (("abbey".toList.length : Nat) : Int) = threeWordGame.config_.L ∧
    (["babes".toList, "crane".toList].foldl
        (fun st w => (makeGuess Variant.HardWordle st w).2)
        (start threeWordGame "abbey".toList)) = sampleHardGame ∧
    getRemainingWords sampleHardGame = 1 ∧
    isValidGuess Variant.HardWordle
      (["babes".toList, "crane".toList].foldl
        (fun st w => (makeGuess Variant.HardWordle st w).2)
        (start threeWordGame "abbey".toList))
      "abbey".toList = true :=
  ⟨by decide, by decide, by decide, by decide,
   (hard_secret_stays_valid threeWordGame "abbey".toList
      ["babes".toList, "crane".toList] (by decide) (by decide)).2.1⟩

end Wordle
